import Mathlib

/-!
# kaipack: a shallow embedding of `main.go`

The program packs a directory into an in-memory zip (`zipToMem`), derives a small
metadata descriptor from `manifest.webapp` (`genMetadata`) and writes both into an
output container (`packSoftware`), driven by `main`.

Modelling conventions.

* Go strings are lists of characters (`Str`), byte slices are lists of bytes.
* The file system below the source directory is a tree of regular files and
  directories (`Node`).  Symbolic links and special files are outside the model.
* Every operation of the operating system or of a library that can fail does so
  according to an explicit table of faults (`Faults`, `PackFaults`), so that the
  error paths of the source are exercised as well as the successful ones.
* A zip archive is the sequence of the entries handed to its writer, with the
  header fields the program sets (`Name`, `Method`, the directory bit of the mode)
  and the payload written into each entry.
* `filepath.Walk`, `strings.TrimPrefix`, `filepath.ToSlash`, `filepath.Join` are
  library code; they are transcribed from the Go standard library.  The host path
  separator is a parameter `sep` (`'/'` on Unix, `'\\'` on Windows).
-/

namespace Kaipack

/-- A Go string. -/
abbrev Str := List Char

/-- A Go byte slice. -/
abbrev Bytes := List (Fin 256)

/-- The `error` values that occur in the program: the sentinel `filepath.SkipDir`,
the program's own `errors.New("source not dir")`, and any error reported by the
operating system or a library, identified by a code. -/
inductive Err where
  | skipDir
  | sourceNotDir
  | os (code : Nat)
  deriving DecidableEq, Repr

/-! ## Library functions on strings and paths -/

/-- Go `strings.HasPrefix`. -/
def HasPrefix (s pre : Str) : Bool := pre.isPrefixOf s

/-- Go `strings.HasSuffix`. -/
def HasSuffix (s suf : Str) : Bool := suf.isSuffixOf s

/-- Go `strings.TrimPrefix`: `s` without the leading `pre`, or `s` itself when it
does not start with `pre`. -/
def TrimPrefix (s pre : Str) : Str :=
  if HasPrefix s pre then s.drop pre.length else s

/-- Go `filepath.ToSlash`: the identity when the separator is `/`, otherwise every
separator is replaced by `/`. -/
def ToSlash (sep : Char) (path : Str) : Str :=
  if sep = '/' then path else path.map (fun c => if c = sep then '/' else c)

/-- Go `filepath.Join dir name` without its closing `filepath.Clean`: an empty `dir`
is ignored, a `dir` that already ends in the separator (a file-system root) takes no
second one. For a clean `dir` and a single file name, which is how `filepath.Walk`
calls it on the result of `filepath.Abs`, this is the string Go returns. `genMetadata`
passes the `-path` flag as it was typed; for a flag that is not clean the result
names the same file as Go's but may be spelled differently (`./manifest.webapp` for
the flag `.`, where Go returns `manifest.webapp`). There it is only the key under
which the file system is asked for the manifest. -/
def Join (sep : Char) (dir name : Str) : Str :=
  if dir = [] then name
  else if dir.getLast? = some sep then dir ++ name
  else dir ++ sep :: name

/-- The string literal `".git"` of line 130. -/
def dotGit : Str := ".git".toList

/-! ## The file system -/

/-- A node of the source tree: a regular file with its bytes, or a directory with
its children in the order `readDirNames` lists them. -/
inductive Node where
  | file (name : Str) (content : Bytes)
  | dir (name : Str) (children : List Node)
  deriving Repr

/-- Go `info.Name()`. -/
def Node.name : Node → Str
  | .file n _ => n
  | .dir n _ => n

/-- Go `info.IsDir()`. -/
def Node.isDir : Node → Bool
  | .file _ _ => false
  | .dir _ _ => true

/-- The bytes `os.Open` followed by reading to the end yields. -/
def Node.content : Node → Bytes
  | .file _ c => c
  | .dir _ _ => []

/-- The failures that can strike the steps `zipToMem` takes at one path.  `none`
means that the step succeeds. -/
structure Faults where
  /-- `os.Lstat` inside `filepath.Walk`. -/
  lstatErr : Option Nat := none
  /-- `readDirNames` inside `filepath.Walk`. -/
  readDirErr : Option Nat := none
  /-- `zip.FileInfoHeader`. -/
  headerErr : Option Nat := none
  /-- `archive.CreateHeader`. -/
  createErr : Option Nat := none
  /-- `os.Open`. -/
  openErr : Option Nat := none
  /-- `io.Copy`: the number of bytes copied before the failure, and the error. -/
  copyErr : Option (Nat × Nat) := none
  deriving DecidableEq, Repr

/-- The faults of a run, by path. -/
abbrev FaultMap := Str → Faults

/-- The run in which every step succeeds. -/
def noFaults : FaultMap := fun _ => {}

/-! ## The zip writer -/

/-- The compression methods of `archive/zip`. -/
inductive Method where
  | Store
  | Deflate
  deriving DecidableEq, Repr

/-- The fields of `zip.FileHeader` the program reads or writes. `IsDir` is the
directory bit of the mode that `zip.FileInfoHeader` copies from the `FileInfo`. -/
structure FileHeader where
  Name : Str
  Method : Method
  IsDir : Bool
  deriving DecidableEq, Repr

/-- One entry of an archive: its header and the bytes written into it. -/
structure Entry where
  header : FileHeader
  payload : Bytes
  deriving DecidableEq, Repr

/-- Go `zip.FileInfoHeader` on success: the base name, method `Store` (the zero
value) and the mode of the node. -/
def FileInfoHeader (info : Node) : FileHeader :=
  { Name := info.name, Method := .Store, IsDir := info.isDir }

/-- Writing bytes through the `io.Writer` that `CreateHeader` returned: they go to
the entry created last. -/
def writeLast (entries : List Entry) (b : Bytes) : List Entry :=
  match entries.getLast? with
  | none => entries
  | some e => entries.dropLast ++ [{ e with payload := e.payload ++ b }]

/-- What `zip.Reader` reports as the kind of an entry: a directory when the mode
says so or the name ends in a slash. -/
def Entry.isDirKind (e : Entry) : Bool :=
  e.header.IsDir || HasSuffix e.header.Name ['/']

/-! ## `zipToMem` -/

/-- The state the walk of `zipToMem` acts on: the entries written to `archive` so
far, and the lines printed to standard output. -/
structure WalkState where
  archive : List Entry
  stdout : List Str
  deriving DecidableEq, Repr

/-- The function literal that `zipToMem` passes to `filepath.Walk` (lines 126-165).
`node` is what lies at `path`: it stands for `info` and for the bytes `os.Open`
reads.  The result is the new state and the error returned. -/
def walkFn (verboseFlag : Bool) (sep : Char) (source : Str) (flt : FaultMap)
    (path : Str) (node : Node) (err : Option Err) (st : WalkState) :
    WalkState × Option Err :=
  match err with
  | some e => (st, some e)
  | none =>
    if node.isDir && node.name == dotGit then (st, some .skipDir)
    else
      match (flt path).headerErr with
      | some c => (st, some (.os c))
      | none =>
        let header := FileInfoHeader node
        let header := { header with Name := TrimPrefix path source }
        if node.isDir && header.Name == [] then (st, none)
        else
          let header := { header with Name := ToSlash sep header.Name }
          let header :=
            if node.isDir then { header with Name := header.Name ++ ['/'] }
            else { header with Method := .Deflate }
          let header := { header with Name := TrimPrefix header.Name ['/'] }
          let st :=
            if verboseFlag then { st with stdout := st.stdout ++ [header.Name] } else st
          match (flt path).createErr with
          | some c => (st, some (.os c))
          | none =>
            let st := { st with archive := st.archive ++ [⟨header, []⟩] }
            if node.isDir then (st, none)
            else
              match (flt path).openErr with
              | some c => (st, some (.os c))
              | none =>
                match (flt path).copyErr with
                | some (n, c) =>
                  ({ st with archive := writeLast st.archive (node.content.take n) },
                    some (.os c))
                | none =>
                  ({ st with archive := writeLast st.archive node.content }, none)

mutual
/-- Go `filepath.walk`: visit `node` at `path`, then its children in order. -/
def walk (verboseFlag : Bool) (sep : Char) (source : Str) (flt : FaultMap) :
    Str → Node → WalkState → WalkState × Option Err
  | path, .file n c, st => walkFn verboseFlag sep source flt path (.file n c) none st
  | path, .dir n cs, st =>
    let err := (flt path).readDirErr.map Err.os
    let r := walkFn verboseFlag sep source flt path (.dir n cs) err st
    if err.isSome || r.2.isSome then r
    else walkChildren verboseFlag sep source flt path cs r.1
/-- The loop over the names of a directory inside Go `filepath.walk`. -/
def walkChildren (verboseFlag : Bool) (sep : Char) (source : Str) (flt : FaultMap) :
    Str → List Node → WalkState → WalkState × Option Err
  | _, [], st => (st, none)
  | path, c :: cs, st =>
    let filename := Join sep path c.name
    match (flt filename).lstatErr with
    | some code =>
      let r := walkFn verboseFlag sep source flt filename c (some (.os code)) st
      if r.2.isSome && r.2 != some .skipDir then r
      else walkChildren verboseFlag sep source flt path cs r.1
    | none =>
      let r := walk verboseFlag sep source flt filename c st
      if r.2.isSome && (!c.isDir || r.2 != some .skipDir) then r
      else walkChildren verboseFlag sep source flt path cs r.1
end

/-- Go `filepath.Walk`. -/
def Walk (verboseFlag : Bool) (sep : Char) (source : Str) (flt : FaultMap)
    (root : Str) (node : Node) (st : WalkState) : WalkState × Option Err :=
  let r :=
    match (flt root).lstatErr with
    | some code => walkFn verboseFlag sep source flt root node (some (.os code)) st
    | none => walk verboseFlag sep source flt root node st
  if r.2 = some .skipDir then (r.1, none) else r

/-- The part of the environment `zipToMem` depends on. -/
structure FsEnv where
  /-- The host path separator, `filepath.Separator`. -/
  sep : Char
  /-- Go `filepath.Abs`. -/
  abs : Str → Except Nat Str
  /-- What `os.Stat` finds at a path: the node there, or an error. -/
  lookup : Str → Except Nat Node
  /-- The faults of the walk. -/
  faults : FaultMap

/-- A finished zip archive, as `zip.Reader` lists it: its entries in order. It
stands for the byte slice `buf.Bytes()`. -/
structure Archive where
  entries : List Entry
  deriving DecidableEq, Repr

/-- The result of `zipToMem`: `(data, err)` and the lines printed. -/
structure ZipResult where
  data : Option Archive
  err : Option Err
  stdout : List Str
  deriving DecidableEq, Repr

/-- Go `zipToMem` (lines 112-168). The value `filepath.Walk` returns is dropped, as
is that of `archive.Close()`; after the walk the function returns
`buf.Bytes(), nil`. -/
def zipToMem (env : FsEnv) (verboseFlag : Bool) (source : Str) : ZipResult :=
  match env.abs source with
  | .error c => ⟨none, some (.os c), []⟩
  | .ok source =>
    match env.lookup source with
    | .error c => ⟨none, some (.os c), []⟩
    | .ok info =>
      if !info.isDir then ⟨none, some .sourceNotDir, []⟩
      else
        let r := Walk verboseFlag env.sep source env.faults source info ⟨[], []⟩
        ⟨some ⟨r.1.archive⟩, none, r.1.stdout⟩

/-! ## `genMetadata` -/

/-- A decoded JSON value. An object is the Go map `map[string]interface{}`, listed
as its key-value pairs with distinct keys. -/
inductive Json where
  | null
  | bool (b : Bool)
  | num (n : Int)
  | str (s : Str)
  | arr (items : List Json)
  | obj (fields : List (Str × Json))

/-- simplejson `Map`: the value as a map, when it is an object. -/
def Json.Map : Json → Option (List (Str × Json))
  | .obj fields => some fields
  | _ => none

/-- simplejson `CheckGet`: the value under `key` when the receiver is an object
that has the key; `(nil, false)` otherwise. -/
def Json.CheckGet (j : Json) (key : Str) : Option Json :=
  match j.Map with
  | some m => m.lookup key
  | none => none

/-- simplejson `MustString()` without a default: the string, or `""` when the
value is not a string. -/
def Json.MustString : Json → Str
  | .str s => s
  | _ => []

/-- simplejson `Set`: store `val` under `key` when the receiver is an object. -/
def Json.Set (j : Json) (key : Str) (val : Json) : Json :=
  match j with
  | .obj fields => .obj (fields.filter (fun kv => kv.1 != key) ++ [(key, val)])
  | other => other

/-- simplejson `New()`: an empty object. -/
def Json.New : Json := .obj []

/-- Lines 95-105 of `genMetadata`: the manifest URL from the parsed manifest and
the text of the freshly generated UUID (`uuid.NewV4().String()`). -/
def manifestURL (json : Json) (uuid : Str) : Str :=
  match json.CheckGet "origin".toList with
  | some origin =>
    let originPath := origin.MustString
    if HasSuffix originPath "/".toList then originPath ++ "manifest.webapp".toList
    else originPath ++ "/manifest.webapp".toList
  | none => "app://".toList ++ uuid ++ "/manifest.webapp".toList

/-- The environment of a whole run: the file system, and the libraries whose
results the program only passes on. -/
structure Env extends FsEnv where
  /-- A failure of reading the bytes of a file that exists. -/
  readErr : Str → Option Nat
  /-- Go `simplejson.NewJson`: the JSON decoder. -/
  parseJson : Bytes → Except Nat Json
  /-- The text of the UUID `uuid.NewV4()` draws in this run. -/
  newUuid : Str
  /-- Go `MarshalJSON` of a simplejson value. -/
  marshal : Json → Except Nat Bytes
  /-- The bytes of a finished archive, `buf.Bytes()`. -/
  zipBytes : Archive → Bytes

/-- Go `ioutil.ReadFile`: the bytes of the regular file at `path`; an error when
nothing is there, when a directory is there (`EISDIR`, 21), or when reading fails. -/
def ReadFile (env : Env) (path : Str) : Except Nat Bytes :=
  match env.lookup path with
  | .error c => .error c
  | .ok (.dir _ _) => .error 21
  | .ok (.file _ content) =>
    match env.readErr path with
    | some c => .error c
    | none => .ok content

/-- Go `genMetadata` (lines 85-110). -/
def genMetadata (env : Env) (source : Str) : Except Err Bytes :=
  let webappFile := Join env.sep source "manifest.webapp".toList
  match ReadFile env webappFile with
  | .error c => .error (.os c)
  | .ok bJson =>
    match env.parseJson bJson with
    | .error c => .error (.os c)
    | .ok json =>
      let manifestURL := manifestURL json env.newUuid
      let jsonObj := Json.New
      let jsonObj := jsonObj.Set "version".toList (.num 1)
      let jsonObj := jsonObj.Set "manifestURL".toList (.str manifestURL)
      match env.marshal jsonObj with
      | .error c => .error (.os c)
      | .ok b => .ok b

/-! ## `packSoftware` -/

/-- The failures that can strike the steps of `packSoftware`. -/
structure PackFaults where
  /-- `os.Create`. -/
  osCreate : Option Nat := none
  /-- `archive.Create("metadata.json")`. -/
  createMeta : Option Nat := none
  /-- `metaWriter.Write`: bytes written before the failure, and the error. -/
  writeMeta : Option (Nat × Nat) := none
  /-- `archive.Create("application.zip")`. -/
  createBody : Option Nat := none
  /-- `bodyWriter.Write`: bytes written before the failure, and the error. -/
  writeBody : Option (Nat × Nat) := none
  /-- The deferred `archive.Close()`. -/
  archiveClose : Option Nat := none
  deriving DecidableEq, Repr

/-- An output file holding a zip container: the entries written to it, and whether
`archive.Close()` completed it. -/
structure OutFile where
  entries : List Entry
  finalized : Bool
  deriving DecidableEq, Repr

/-- What `zip.Reader` lists when it opens an output file: the entries of a completed
container. A container whose central directory was not written by `archive.Close()`
cannot be read. -/
def OutFile.read (f : OutFile) : Option (List Entry) :=
  if f.finalized then some f.entries else none

/-- The files the program can create, by path. -/
abbrev Files := Str → Option OutFile

/-- The file at `path` replaced by `f`. -/
def Files.set (files : Files) (path : Str) (f : OutFile) : Files :=
  fun p => if p = path then some f else files p

/-- Go `archive.Create(name)`: a new entry with method `Deflate`. -/
def zipCreate (entries : List Entry) (name : Str) : List Entry :=
  entries ++ [⟨{ Name := name, Method := .Deflate, IsDir := false }, []⟩]

/-- Go `packSoftware` (lines 61-83). `outputPath` is the package-level flag
`*outputPath`, which line 62 passes to `os.Create`; the parameter `dst` is not read.
The deferred `archive.Close()` and `zipfile.Close()` run on every return after
`os.Create` succeeded; their results are dropped. -/
def packSoftware (outputPath : Str) (flt : PackFaults) (dst : Str)
    (metadata appZip : Bytes) (files : Files) : Files × Option Err :=
  match flt.osCreate with
  | some c => (files, some (.os c))
  | none =>
    let leave := fun (entries : List Entry) (err : Option Err) =>
      (files.set outputPath ⟨entries, flt.archiveClose.isNone⟩, err)
    let archive : List Entry := []
    match flt.createMeta with
    | some c => leave archive (some (.os c))
    | none =>
      let archive := zipCreate archive "metadata.json".toList
      match flt.writeMeta with
      | some (n, c) => leave (writeLast archive (metadata.take n)) (some (.os c))
      | none =>
        let archive := writeLast archive metadata
        match flt.createBody with
        | some c => leave archive (some (.os c))
        | none =>
          let archive := zipCreate archive "application.zip".toList
          match flt.writeBody with
          | some (n, c) => leave (writeLast archive (appZip.take n)) (some (.os c))
          | none => leave (writeLast archive appZip) none

/-! ## `main` -/

/-- The command-line flags: `-path`, `-verbose`, `-output`. -/
structure Flags where
  kaiosAppPath : Str := "app".toList
  verboseFlag : Bool := false
  outputPath : Str := "app.zip".toList
  deriving DecidableEq, Repr

/-- A line of standard output. -/
inductive Line where
  /-- `fmt.Println` of a string. -/
  | text (s : Str)
  /-- `fmt.Println(err)`. -/
  | error (e : Err)
  /-- `fmt.Println("ZIP_LENGTH::", n)`. -/
  | zipLength (n : Nat)
  /-- `fmt.Println(string(b))`. -/
  | bytes (b : Bytes)
  deriving DecidableEq, Repr

/-- What a run leaves behind: the files, the output, and the exit code. -/
structure Outcome where
  files : Files
  stdout : List Line
  exitCode : Nat

/-- Go `main` (lines 23-59), started on the files `files`. -/
def main (flags : Flags) (env : Env) (pack : PackFaults) (files : Files) : Outcome :=
  let out := [Line.text "KaiPack by zjyl1994".toList]
  let out :=
    if flags.verboseFlag then
      out ++ [Line.text "https://github.com/zjyl1994/kaipack\n=============".toList]
    else out
  let out :=
    if flags.verboseFlag then out ++ [Line.text ">> packing app in zip.".toList] else out
  let z := zipToMem env.toFsEnv flags.verboseFlag flags.kaiosAppPath
  let out := out ++ z.stdout.map Line.text
  match z.err with
  | some err => ⟨files, out ++ [Line.error err], 1⟩
  | none =>
    let packagedAppZip : Bytes :=
      match z.data with
      | some a => env.zipBytes a
      | none => []
    let out :=
      if flags.verboseFlag then
        out ++ [Line.zipLength packagedAppZip.length, Line.text ">> zip pack success.".toList]
      else out
    match genMetadata env flags.kaiosAppPath with
    | .error err => ⟨files, out ++ [Line.error err], 1⟩
    | .ok bMetadata =>
      let out :=
        if flags.verboseFlag then
          out ++ [Line.bytes bMetadata, Line.text ">> metadata generated.".toList]
        else out
      let r := packSoftware flags.outputPath pack flags.outputPath bMetadata packagedAppZip files
      match r.2 with
      | some err => ⟨r.1, out ++ [Line.error err], 1⟩
      | none =>
        let out :=
          if flags.verboseFlag then out ++ [Line.text ">> package generated.".toList] else out
        ⟨r.1, out ++ [Line.text "All done.".toList], 0⟩

/-! ## Reference descriptions of a source tree

The following definitions do not come from the program. They say, in terms of the
tree alone, what the specification expects of an archive of it. -/

/-- A name a file system can give to a node: not empty, and free of the slash and of
the host separator. -/
def validName (sep : Char) (n : Str) : Bool :=
  n != [] && !n.contains '/' && !n.contains sep

mutual
/-- Every node below this one has a valid name. -/
def Node.wf (sep : Char) : Node → Bool
  | .file _ _ => true
  | .dir _ cs => wfList sep cs
/-- Every node of the list, and every node below one, has a valid name. -/
def wfList (sep : Char) : List Node → Bool
  | [] => true
  | c :: cs => validName sep c.name && c.wf sep && wfList sep cs
end

mutual
/-- The tree holds a directory named `.git`: the node itself or one below it. -/
def Node.hasGitDir : Node → Bool
  | .file _ _ => false
  | .dir n cs => n == dotGit || hasGitDirList cs
/-- One of the trees holds a directory named `.git`. -/
def hasGitDirList : List Node → Bool
  | [] => false
  | c :: cs => c.hasGitDir || hasGitDirList cs
end

mutual
/-- The regular files of a tree placed under the relative path `pre` (empty, or
ending in a slash): slash-separated path and bytes, in listing order. -/
def relFilesAt (pre : Str) : Node → List (Str × Bytes)
  | .file n c => [(pre ++ n, c)]
  | .dir n cs => relFilesIn (pre ++ n ++ ['/']) cs
/-- The regular files of the trees of a directory whose relative path is `pre`. -/
def relFilesIn (pre : Str) : List Node → List (Str × Bytes)
  | [] => []
  | c :: cs => relFilesAt pre c ++ relFilesIn pre cs
end

/-- The root-relative file paths of a source tree, each with the file's bytes. -/
def relFiles : Node → List (Str × Bytes)
  | .file _ _ => []
  | .dir _ cs => relFilesIn [] cs

/-- What extracting an archive yields as files: name and payload of every entry
that is not a directory. -/
def extractFiles (a : Archive) : List (Str × Bytes) :=
  (a.entries.filter (fun e => !e.isDirKind)).map (fun e => (e.header.Name, e.payload))

mutual
/-- A node and all nodes below it, each with the list of names leading to it from
the root (the root's own name excluded); `comps` leads to the parent. -/
def nodesAt (comps : List Str) : Node → List (List Str × Node)
  | .file n c => [(comps ++ [n], .file n c)]
  | .dir n cs => (comps ++ [n], .dir n cs) :: nodesIn (comps ++ [n]) cs
/-- The nodes of the trees of a directory reached by `comps`. -/
def nodesIn (comps : List Str) : List Node → List (List Str × Node)
  | [] => []
  | c :: cs => nodesAt comps c ++ nodesIn comps cs
end

/-- All nodes strictly below the root of a source tree. -/
def nodesBelow : Node → List (List Str × Node)
  | .file _ _ => []
  | .dir _ cs => nodesIn [] cs

/-- The node reached by `p.1` lies in a subtree rooted at a directory named `.git`:
the root is one, or a directory above the node is, or the node is one itself. -/
def underGit (rootName : Str) (p : List Str × Node) : Bool :=
  rootName == dotGit || p.1.dropLast.contains dotGit ||
    (p.2.isDir && p.2.name == dotGit)

/-- The archive name of the node reached by `comps`: the names joined by slashes,
with a closing slash for a directory. -/
def render (comps : List Str) (isDir : Bool) : Str :=
  ['/'].intercalate comps ++ (if isDir then ['/'] else [])

/-- The archive entry the specification expects for a node. -/
def entryOf (p : List Str × Node) : Entry :=
  { header :=
      { Name := render p.1 p.2.isDir
        Method := if p.2.isDir then .Store else .Deflate
        IsDir := p.2.isDir }
    payload := p.2.content }

/-! ## Auxiliary definitions for the proofs -/

/-- The names of `comps`, each preceded by `sep`. -/
def sepAll (sep : Char) : List Str → Str
  | [] => []
  | c :: cs => sep :: c ++ sepAll sep cs

/-- The path `filepath.Walk` builds for the node reached by `comps` from `source`. -/
def nodePath (sep : Char) (source : Str) (comps : List Str) : Str :=
  comps.foldl (Join sep) source

/-- What `Join` puts between `source` and the first name. -/
def lead (sep : Char) (source : Str) : Str :=
  if source = [] ∨ source.getLast? = some sep then [] else [sep]

/-- The lines the verbose flag adds for a list of entries. -/
def printed (verboseFlag : Bool) (es : List Entry) : List Str :=
  if verboseFlag then es.map (fun e => e.header.Name) else []

/-- An entry as the walk writes it for a node below the source directory: named by
the names leading to the node, a directory entry stored and empty, a file entry
deflated. -/
def Shaped (sep : Char) (e : Entry) : Prop :=
  ∃ (comps : List Str) (d : Bool), comps ≠ [] ∧ (∀ x ∈ comps, validName sep x = true) ∧
    e.header = ⟨render comps d, if d then .Store else .Deflate, d⟩ ∧
    (d = true → e.payload = [])

/-- The archive of `st2` holds the entries of `st1` and otherwise shaped ones. -/
def Grows (sep : Char) (st1 st2 : WalkState) : Prop :=
  ∀ e ∈ st2.archive, e ∈ st1.archive ∨ Shaped sep e

/-- Every entry of `st2` that `st1` lacks is the entry of one of the nodes `l` that
lies outside every `.git` subtree, with a payload that is an initial part of the
file's bytes. -/
def GrowsIn (rootName : Str) (l : List (List Str × Node)) (st1 st2 : WalkState) : Prop :=
  ∀ e ∈ st2.archive, e ∈ st1.archive ∨
    ∃ q ∈ l, underGit rootName q = false ∧ e.header = (entryOf q).header ∧
      e.payload <+: q.2.content

/-- The entries the specification expects for a list of nodes: those of the nodes
outside every `.git` subtree. -/
def kept (rootName : Str) (l : List (List Str × Node)) : List Entry :=
  (l.filter (fun p => !underGit rootName p)).map entryOf

/-- The relative path of the directory reached by `comps`, as a prefix of the
names below it: every name followed by a slash. -/
def dirPrefix (comps : List Str) : Str :=
  (comps.map (fun c => c ++ ['/'])).flatten

/-! ### Examples -/

/-- A Unix host on which `root` holds the given tree. -/
def unixEnv (root : Str) (tree : Node) (flt : FaultMap) : FsEnv :=
  { sep := '/'
    abs := fun p => .ok p
    lookup := fun p => if p = root then .ok tree else .error 2
    faults := flt }

/-- A small application directory, with a `.git` directory in it. -/
def sampleTree : Node :=
  .dir "app".toList
    [ .file "a.js".toList [1, 2, 3],
      .dir ".git".toList [ .file "HEAD".toList [9] ],
      .dir "lib".toList [ .file "b.js".toList [4], .dir "app".toList [] ],
      .file "manifest.webapp".toList [5] ]

/-- The sample directory at `/app`, every step succeeding. -/
def sampleEnv : FsEnv := unixEnv "/app".toList sampleTree noFaults

/-- The archive of the sample directory. -/
def sampleArchive : Archive :=
  ⟨[ ⟨⟨"a.js".toList, .Deflate, false⟩, [1, 2, 3]⟩,
     ⟨⟨"lib/".toList, .Store, true⟩, []⟩,
     ⟨⟨"lib/b.js".toList, .Deflate, false⟩, [4]⟩,
     ⟨⟨"lib/app/".toList, .Store, true⟩, []⟩,
     ⟨⟨"manifest.webapp".toList, .Deflate, false⟩, [5]⟩ ]⟩

/-- The sample directory without its `.git` directory. -/
def plainTree : Node :=
  .dir "app".toList
    [ .file "a.js".toList [1, 2, 3],
      .dir "lib".toList [ .file "b.js".toList [4], .dir "app".toList [] ],
      .file "manifest.webapp".toList [5] ]

/-- The plain directory at `/app`, every step succeeding. -/
def plainEnv : FsEnv := unixEnv "/app".toList plainTree noFaults

/-- The sample directory at `/app` when `os.Open` of `/app/a.js` fails with
`EACCES` (13). -/
def deniedEnv : FsEnv :=
  unixEnv "/app".toList sampleTree
    (fun p => if p = "/app/a.js".toList then { openErr := some 13 } else {})

/-- The text of a version-4 UUID. -/
def sampleUuid : Str := "6ba7b810-9dad-41d1-80b4-00c04fd430c8".toList

/-- A manifest whose `origin` is a number. -/
def numericOriginManifest : Json := .obj [("origin".toList, .num 42)]

/-- A manifest without `origin`. -/
def plainManifest : Json := .obj [("name".toList, .str "demo".toList)]

/-- A manifest whose `origin` is the string of the specification's first example. -/
def originManifest : Json :=
  .obj [("name".toList, .str "demo".toList),
    ("origin".toList, .str "https://example.com/app".toList)]

/-- A run of `packSoftware` on a full device: the buffered writes succeed and the
deferred `archive.Close()`, which flushes them, fails with `ENOSPC` (28). -/
def fullDeviceFaults : PackFaults := { archiveClose := some 28 }

/-- No file exists. -/
def noFiles : Files := fun _ => none

/-- A Unix host with working directory `/work`, in which `app` is a regular file. -/
def fileEnv : Env :=
  { sep := '/'
    abs := fun p => .ok ("/work/".toList ++ p)
    lookup := fun p =>
      if p = "/work/app".toList then .ok (.file "app".toList [1]) else .error 2
    faults := noFaults
    readErr := fun _ => none
    parseJson := fun _ => .error 1
    newUuid := sampleUuid
    marshal := fun _ => .ok []
    zipBytes := fun _ => [] }

/-- A Unix host with working directory `/work`, in which `app` is a directory that
holds `index.html` and no `manifest.webapp`. -/
def bareEnv : Env :=
  { sep := '/'
    abs := fun p => .ok ("/work/".toList ++ p)
    lookup := fun p =>
      if p = "/work/app".toList then .ok (.dir "app".toList [.file "index.html".toList [7]])
      else .error 2
    faults := noFaults
    readErr := fun _ => none
    parseJson := fun _ => .error 1
    newUuid := sampleUuid
    marshal := fun _ => .ok []
    zipBytes := fun _ => [] }

/-- A manifest whose `origin` is the string of the specification's second example. -/
def originSlashManifest : Json :=
  .obj [("origin".toList, .str "https://example.com/app/".toList)]

/-! ## Strings and paths -/

theorem validName_iff (sep : Char) (n : Str) :
    validName sep n = true ↔ n ≠ [] ∧ '/' ∉ n ∧ sep ∉ n := by
  simp [validName, and_assoc]

theorem intercalate_cons_eq (sep : Char) (c : Str) (cs : List Str) :
    [sep].intercalate (c :: cs) = c ++ sepAll sep cs := by
  induction cs generalizing c with
  | nil => simp [List.intercalate, sepAll]
  | cons d ds ih =>
    have h := ih d
    simp only [List.intercalate, List.intersperse, List.flatten] at h ⊢
    simp [sepAll, h]

theorem nodePath_snoc (sep : Char) (source : Str) (comps : List Str) (n : Str) :
    nodePath sep source (comps ++ [n]) = Join sep (nodePath sep source comps) n := by
  simp [nodePath]

theorem sepAll_append (sep : Char) (xs ys : List Str) :
    sepAll sep (xs ++ ys) = sepAll sep xs ++ sepAll sep ys := by
  induction xs with
  | nil => rfl
  | cons x xs ih => simp [sepAll, ih]

theorem Join_source (sep : Char) (source c : Str) :
    Join sep source c = source ++ lead sep source ++ c := by
  unfold Join lead
  by_cases h1 : source = []
  · simp [h1]
  · by_cases h2 : source.getLast? = some sep <;> simp [h1, h2]

theorem Join_inner (sep : Char) (d c : Str) (hd : d ≠ []) (hl : d.getLast? ≠ some sep) :
    Join sep d c = d ++ sep :: c := by
  simp [Join, hd, hl]

theorem getLast?_ne_of_not_mem {sep : Char} {c : Str} (h : sep ∉ c) :
    c.getLast? ≠ some sep := by
  intro hc
  obtain ⟨ys, rfl⟩ := List.getLast?_eq_some_iff.mp hc
  simp at h

theorem getLast?_sepAll (sep : Char) (c : Str) (cs : List Str)
    (hc : validName sep c = true) (hcs : ∀ x ∈ cs, validName sep x = true) :
    (c ++ sepAll sep cs) ≠ [] ∧ (c ++ sepAll sep cs).getLast? ≠ some sep := by
  induction cs generalizing c with
  | nil =>
    obtain ⟨h1, _, h3⟩ := (validName_iff sep c).mp hc
    simpa [sepAll, h1] using getLast?_ne_of_not_mem h3
  | cons d ds ih =>
    obtain ⟨h1, _, _⟩ := (validName_iff sep c).mp hc
    have hd := ih d (hcs d (by simp)) (fun x hx => hcs x (by simp [hx]))
    refine ⟨by simp [h1], ?_⟩
    have : c ++ sepAll sep (d :: ds) = (c ++ [sep]) ++ (d ++ sepAll sep ds) := by
      simp [sepAll]
    rw [this, List.getLast?_append_of_ne_nil _ hd.1]
    exact hd.2

theorem nodePath_eq (sep : Char) (source c : Str) (cs : List Str)
    (hc : validName sep c = true) (hcs : ∀ x ∈ cs, validName sep x = true) :
    nodePath sep source (c :: cs) = source ++ lead sep source ++ (c ++ sepAll sep cs) := by
  induction cs using List.reverseRecOn with
  | nil => simp [nodePath, Join_source, sepAll]
  | append_singleton ds d ih =>
    have hds : ∀ x ∈ ds, validName sep x = true := fun x hx => hcs x (by simp [hx])
    have h := ih hds
    have hl := getLast?_sepAll sep c ds hc hds
    have : c :: (ds ++ [d]) = (c :: ds) ++ [d] := by simp
    rw [this, nodePath_snoc, h, Join_inner]
    · simp [sepAll_append, sepAll]
    · simp [hl.1]
    · rw [List.getLast?_append_of_ne_nil _ hl.1]
      exact hl.2

theorem TrimPrefix_append (source rest : Str) :
    TrimPrefix (source ++ rest) source = rest := by
  simp [TrimPrefix, HasPrefix]

theorem map_eq_self_of_not_mem (sep : Char) (c : Str) (h : sep ∉ c) :
    c.map (fun x => if x = sep then '/' else x) = c := by
  induction c with
  | nil => rfl
  | cons a as ih =>
    simp only [List.mem_cons, not_or] at h
    simp [ih h.2, Ne.symm h.1]

theorem ToSlash_sepAll (sep : Char) (cs : List Str)
    (hcs : ∀ x ∈ cs, validName sep x = true) :
    ToSlash sep (sepAll sep cs) = sepAll '/' cs := by
  unfold ToSlash
  split
  · next h => rw [h]
  · induction cs with
    | nil => rfl
    | cons d ds ih =>
      obtain ⟨_, _, h3⟩ := (validName_iff sep d).mp (hcs d (by simp))
      have := ih (fun x hx => hcs x (by simp [hx]))
      simp [sepAll, map_eq_self_of_not_mem sep d h3, this]

theorem ToSlash_append (sep : Char) (a b : Str) :
    ToSlash sep (a ++ b) = ToSlash sep a ++ ToSlash sep b := by
  unfold ToSlash
  split <;> simp

theorem ToSlash_name (sep : Char) (c : Str) (hc : validName sep c = true) :
    ToSlash sep c = c := by
  obtain ⟨_, _, h3⟩ := (validName_iff sep c).mp hc
  unfold ToSlash
  split
  · rfl
  · exact map_eq_self_of_not_mem sep c h3

theorem TrimPrefix_slash_name (c rest : Str) (h1 : c ≠ []) (h2 : '/' ∉ c) :
    TrimPrefix (c ++ rest) ['/'] = c ++ rest := by
  cases c with
  | nil => exact absurd rfl h1
  | cons a as =>
    simp only [List.mem_cons, not_or] at h2
    simp [TrimPrefix, HasPrefix, List.isPrefixOf, h2.1]

/-- The entry name `zipToMem` computes from the path of a node below the source
directory (lines 137-147) is the slash-separated list of the names leading to it. -/
theorem entryName_eq (sep : Char) (source c : Str) (cs : List Str) (sfx : Str)
    (hc : validName sep c = true) (hcs : ∀ x ∈ cs, validName sep x = true) :
    TrimPrefix (nodePath sep source (c :: cs)) source ≠ [] ∧
    TrimPrefix (ToSlash sep (TrimPrefix (nodePath sep source (c :: cs)) source) ++ sfx) ['/']
      = ['/'].intercalate (c :: cs) ++ sfx := by
  obtain ⟨h1, h2, _⟩ := (validName_iff sep c).mp hc
  rw [nodePath_eq sep source c cs hc hcs, List.append_assoc, TrimPrefix_append]
  refine ⟨by simp [h1], ?_⟩
  rw [ToSlash_append, ToSlash_append, ToSlash_name sep c hc, ToSlash_sepAll sep cs hcs,
    intercalate_cons_eq]
  have key : ToSlash sep (lead sep source) = [] ∨ ToSlash sep (lead sep source) = ['/'] := by
    unfold lead ToSlash
    split <;> split <;> simp_all
  rcases key with h | h
  · rw [h]
    simpa using TrimPrefix_slash_name c (sepAll '/' cs ++ sfx) h1 h2
  · rw [h]
    simp [TrimPrefix, HasPrefix, List.isPrefixOf]

theorem entryName_render (sep : Char) (source : Str) (comps : List Str) (d : Bool)
    (hne : comps ≠ []) (hv : ∀ x ∈ comps, validName sep x = true) :
    TrimPrefix (nodePath sep source comps) source ≠ [] ∧
    TrimPrefix (ToSlash sep (TrimPrefix (nodePath sep source comps) source) ++
      (if d then ['/'] else [])) ['/'] = render comps d := by
  cases comps with
  | nil => exact absurd rfl hne
  | cons c cs =>
    exact entryName_eq sep source c cs _ (hv c (by simp)) (fun x hx => hv x (by simp [hx]))

theorem writeLast_concat (es : List Entry) (e : Entry) (b : Bytes) :
    writeLast (es ++ [e]) b = es ++ [{ e with payload := e.payload ++ b }] := by
  simp [writeLast]

/-- The callback on a node below the source directory, with the entry name in
closed form. -/
theorem walkFn_below (v : Bool) (sep : Char) (source : Str) (flt : FaultMap)
    (comps : List Str) (node : Node) (st : WalkState)
    (hne : comps ≠ []) (hv : ∀ x ∈ comps, validName sep x = true) :
    walkFn v sep source flt (nodePath sep source comps) node none st =
      if node.isDir && node.name == dotGit then (st, some .skipDir)
      else
        match (flt (nodePath sep source comps)).headerErr with
        | some c => (st, some (.os c))
        | none =>
          let header : FileHeader :=
            ⟨render comps node.isDir, if node.isDir then .Store else .Deflate, node.isDir⟩
          let st1 : WalkState := ⟨st.archive, st.stdout ++ printed v [⟨header, []⟩]⟩
          match (flt (nodePath sep source comps)).createErr with
          | some c => (st1, some (.os c))
          | none =>
            if node.isDir then (⟨st.archive ++ [⟨header, []⟩], st1.stdout⟩, none)
            else
              match (flt (nodePath sep source comps)).openErr with
              | some c => (⟨st.archive ++ [⟨header, []⟩], st1.stdout⟩, some (.os c))
              | none =>
                match (flt (nodePath sep source comps)).copyErr with
                | some (n, c) =>
                  (⟨st.archive ++ [⟨header, node.content.take n⟩], st1.stdout⟩, some (.os c))
                | none => (⟨st.archive ++ [⟨header, node.content⟩], st1.stdout⟩, none) := by
  have ht := entryName_render sep source comps true hne hv
  have hf := entryName_render sep source comps false hne hv
  simp only [if_true, Bool.false_eq_true, if_false, List.append_nil] at ht hf
  unfold walkFn
  cases node with
  | file n b =>
    simp only [Node.isDir, Node.name, Node.content, Bool.false_and, Bool.false_eq_true,
      if_false, FileInfoHeader, hf.2, printed]
    cases (flt (nodePath sep source comps)).headerErr <;>
    cases (flt (nodePath sep source comps)).createErr <;>
    cases (flt (nodePath sep source comps)).openErr <;>
    cases (flt (nodePath sep source comps)).copyErr <;>
    cases v <;> simp [writeLast_concat]
  | dir n cs =>
    simp only [Node.isDir, Node.name, Bool.true_and, if_true, FileInfoHeader, ht.2, printed,
      beq_iff_eq, ht.1, if_false]
    by_cases hg : n = dotGit
    · simp [hg]
    · cases (flt (nodePath sep source comps)).headerErr <;>
      cases (flt (nodePath sep source comps)).createErr <;>
      cases v <;> simp [hg]

/-! ## Every entry written has the shape of a root-relative name -/

theorem grows_refl (sep : Char) (st : WalkState) : Grows sep st st :=
  fun _ he => Or.inl he

theorem grows_trans {sep : Char} {a b c : WalkState} (h1 : Grows sep a b)
    (h2 : Grows sep b c) : Grows sep a c := by
  intro e he
  rcases h2 e he with h | h
  · exact h1 e h
  · exact Or.inr h

theorem walkFn_err_grows (v : Bool) (sep : Char) (source : Str) (flt : FaultMap)
    (path : Str) (node : Node) (err : Err) (st : WalkState) :
    walkFn v sep source flt path node (some err) st = (st, some err) := by
  simp [walkFn]

theorem shaped_mk (sep : Char) (comps : List Str) (d : Bool) (m : Method) (b : Bytes)
    (hne : comps ≠ []) (hv : ∀ x ∈ comps, validName sep x = true)
    (hm : m = if d then .Store else .Deflate) (hb : d = true → b = []) :
    Shaped sep ⟨⟨render comps d, m, d⟩, b⟩ :=
  ⟨comps, d, hne, hv, by rw [hm], hb⟩

theorem walkFn_grows (v : Bool) (sep : Char) (source : Str) (flt : FaultMap)
    (comps : List Str) (node : Node) (st : WalkState)
    (hne : comps ≠ []) (hv : ∀ x ∈ comps, validName sep x = true) :
    Grows sep st (walkFn v sep source flt (nodePath sep source comps) node none st).1 := by
  intro e he
  rw [walkFn_below v sep source flt comps node st hne hv] at he
  generalize flt (nodePath sep source comps) = F at he
  rcases F with ⟨f1, f2, f3, f4, f5, f6⟩
  by_cases hg : node.name = dotGit <;>
  cases hd : node.isDir <;>
  rcases f3 with _ | f3 <;> rcases f4 with _ | f4 <;> rcases f5 with _ | f5 <;>
  rcases f6 with _ | ⟨n, c⟩ <;>
  simp only [hd, hg, Bool.false_and, Bool.true_and, Bool.false_eq_true, if_false, if_true,
    beq_self_eq_true, beq_iff_eq, List.mem_append, List.mem_singleton] at he <;>
  first
    | exact Or.inl he
    | (rcases he with h | h
       · exact Or.inl h
       · exact Or.inr (h ▸ shaped_mk sep comps _ _ _ hne hv (by simp) (by simp)))

theorem wfList_cons (sep : Char) (c : Node) (cs : List Node) :
    wfList sep (c :: cs) = true ↔
      validName sep c.name = true ∧ c.wf sep = true ∧ wfList sep cs = true := by
  simp [wfList, and_assoc]

mutual
theorem walk_grows (v : Bool) (sep : Char) (source : Str) (flt : FaultMap) :
    ∀ (node : Node) (comps : List Str) (st : WalkState), comps ≠ [] →
      (∀ x ∈ comps, validName sep x = true) → node.wf sep = true →
      Grows sep st (walk v sep source flt (nodePath sep source comps) node st).1
  | .file n b, comps, st, hne, hv, _ => by
    rw [walk]
    exact walkFn_grows v sep source flt comps _ st hne hv
  | .dir n cs, comps, st, hne, hv, hwf => by
    rw [walk]
    cases hrd : (flt (nodePath sep source comps)).readDirErr with
    | some c => simp [walkFn_err_grows, grows_refl]
    | none =>
      simp only [Option.map_none', Option.isSome_none, Bool.false_or]
      split
      · exact walkFn_grows v sep source flt comps _ st hne hv
      · exact grows_trans (walkFn_grows v sep source flt comps _ st hne hv)
          (walkChildren_grows v sep source flt cs comps _ hv (by simpa [Node.wf] using hwf))
theorem walkChildren_grows (v : Bool) (sep : Char) (source : Str) (flt : FaultMap) :
    ∀ (cs : List Node) (comps : List Str) (st : WalkState),
      (∀ x ∈ comps, validName sep x = true) → wfList sep cs = true →
      Grows sep st (walkChildren v sep source flt (nodePath sep source comps) cs st).1
  | [], comps, st, _, _ => by
    rw [walkChildren]
    exact grows_refl sep st
  | c :: cs, comps, st, hv, hwf => by
    obtain ⟨hc, hcw, hcs⟩ := (wfList_cons sep c cs).mp hwf
    have hv' : ∀ x ∈ comps ++ [c.name], validName sep x = true := by
      intro x hx
      rcases List.mem_append.mp hx with h | h
      · exact hv x h
      · rw [List.mem_singleton.mp h]; exact hc
    rw [walkChildren, ← nodePath_snoc]
    cases (flt (nodePath sep source (comps ++ [c.name]))).lstatErr with
    | some code =>
      simp only [walkFn_err_grows]
      split
      · exact grows_refl sep st
      · exact walkChildren_grows v sep source flt cs comps st hv hcs
    | none =>
      simp only
      have h1 := walk_grows v sep source flt c (comps ++ [c.name]) st (by simp) hv' hcw
      split
      · exact h1
      · exact grows_trans h1 (walkChildren_grows v sep source flt cs comps _ hv hcs)
end

/-! ## The archive of a run without faults -/

theorem kept_append (rootName : Str) (a b : List (List Str × Node)) :
    kept rootName (a ++ b) = kept rootName a ++ kept rootName b := by
  simp [kept]

theorem printed_append (v : Bool) (a b : List Entry) :
    printed v (a ++ b) = printed v a ++ printed v b := by
  cases v <;> simp [printed]

theorem printed_nil (v : Bool) : printed v [] = [] := by
  cases v <;> rfl

mutual
theorem nodesAt_extends : ∀ (node : Node) (comps : List Str) (p : List Str × Node),
    p ∈ nodesAt comps node → ∃ rest, rest ≠ [] ∧ p.1 = comps ++ rest
  | .file n b, comps, p, hp => by
    simp only [nodesAt, List.mem_singleton] at hp
    exact ⟨[n], by simp, by rw [hp]⟩
  | .dir n cs, comps, p, hp => by
    simp only [nodesAt, List.mem_cons] at hp
    rcases hp with hp | hp
    · exact ⟨[n], by simp, by rw [hp]⟩
    · obtain ⟨rest, _, h⟩ := nodesIn_extends cs (comps ++ [n]) p hp
      exact ⟨n :: rest, by simp, by simp [h]⟩
theorem nodesIn_extends : ∀ (cs : List Node) (comps : List Str) (p : List Str × Node),
    p ∈ nodesIn comps cs → ∃ rest, rest ≠ [] ∧ p.1 = comps ++ rest
  | [], _, p, hp => by simp [nodesIn] at hp
  | c :: cs, comps, p, hp => by
    simp only [nodesIn, List.mem_append] at hp
    rcases hp with hp | hp
    · exact nodesAt_extends c comps p hp
    · exact nodesIn_extends cs comps p hp
end

theorem underGit_of_mem (rootName : Str) (comps : List Str) (p : List Str × Node)
    (hg : dotGit ∈ comps) (hp : ∃ rest, rest ≠ [] ∧ p.1 = comps ++ rest) :
    underGit rootName p = true := by
  obtain ⟨rest, hne, h⟩ := hp
  have : dotGit ∈ p.1.dropLast := by
    rw [h, List.dropLast_append_of_ne_nil _ hne]
    exact List.mem_append_left _ hg
  simp_all [underGit]

theorem kept_under_git (rootName : Str) (comps : List Str) (cs : List Node)
    (hg : dotGit ∈ comps) : kept rootName (nodesIn comps cs) = [] := by
  simp only [kept, List.map_eq_nil_iff, List.filter_eq_nil_iff]
  intro p hp
  simp [underGit_of_mem rootName comps p hg (nodesIn_extends cs comps p hp)]

theorem underGit_node (rootName : Str) (comps : List Str) (node : Node)
    (hroot : rootName ≠ dotGit) (hg : dotGit ∉ comps) :
    underGit rootName (comps ++ [node.name], node) =
      (node.isDir && node.name == dotGit) := by
  simp_all [underGit]

theorem noFaults_apply (p : Str) : noFaults p = {} := rfl

mutual
theorem walk_exact (v : Bool) (sep : Char) (source rootName : Str)
    (hroot : rootName ≠ dotGit) :
    ∀ (node : Node) (comps : List Str) (st : WalkState),
      (∀ x ∈ comps, validName sep x = true) → validName sep node.name = true →
      node.wf sep = true → dotGit ∉ comps →
      walk v sep source noFaults (nodePath sep source (comps ++ [node.name])) node st =
        (⟨st.archive ++ kept rootName (nodesAt comps node),
          st.stdout ++ printed v (kept rootName (nodesAt comps node))⟩,
         if node.isDir && node.name == dotGit then some .skipDir else none)
  | .file n b, comps, st, hv, hn, _, hg => by
    have hv' : ∀ x ∈ comps ++ [n], validName sep x = true := by
      intro x hx
      rcases List.mem_append.mp hx with h | h
      · exact hv x h
      · rw [List.mem_singleton.mp h]; exact hn
    have hu := underGit_node rootName comps (.file n b) hroot hg
    simp only [Node.name, Node.isDir, Bool.false_and] at hu
    rw [walk]
    simp only [Node.name]
    rw [walkFn_below v sep source noFaults _ _ st (by simp) hv']
    simp [noFaults_apply, Node.isDir, Node.name, Node.content, nodesAt, kept, hu, entryOf,
      printed]
  | .dir n cs, comps, st, hv, hn, hwf, hg => by
    have hv' : ∀ x ∈ comps ++ [n], validName sep x = true := by
      intro x hx
      rcases List.mem_append.mp hx with h | h
      · exact hv x h
      · rw [List.mem_singleton.mp h]; exact hn
    have hu := underGit_node rootName comps (.dir n cs) hroot hg
    simp only [Node.name, Node.isDir, Bool.true_and] at hu
    rw [walk]
    simp only [Node.name, noFaults_apply, Option.map_none', Option.isSome_none, Bool.false_or]
    rw [walkFn_below v sep source noFaults _ _ st (by simp) hv']
    by_cases hgit : n = dotGit
    · subst hgit
      have hk : kept rootName (nodesIn (comps ++ [dotGit]) cs) = [] :=
        kept_under_git rootName _ cs (by simp)
      have hu' : underGit rootName (comps ++ [dotGit], .dir dotGit cs) = true := by
        rw [hu]; simp
      have hk' : kept rootName (nodesAt comps (.dir dotGit cs)) = [] := by
        have : kept rootName (nodesAt comps (.dir dotGit cs)) =
            kept rootName (nodesIn (comps ++ [dotGit]) cs) := by
          simp [nodesAt, kept, hu']
        rw [this, hk]
      rw [hk']
      simp [Node.isDir, Node.name, printed_nil]
    · have hg' : dotGit ∉ comps ++ [n] := by
        simp [hg, Ne.symm hgit]
      have ih := walkChildren_exact v sep source rootName hroot cs (comps ++ [n])
        ⟨st.archive ++ [entryOf (comps ++ [n], .dir n cs)],
          st.stdout ++ printed v [entryOf (comps ++ [n], .dir n cs)]⟩ hv'
        (by simpa [Node.wf] using hwf) hg'
      have hu' : underGit rootName (comps ++ [n], .dir n cs) = false := by
        rw [hu]; simp [hgit]
      have hk : kept rootName (nodesAt comps (.dir n cs)) =
          entryOf (comps ++ [n], .dir n cs) :: kept rootName (nodesIn (comps ++ [n]) cs) := by
        simp [nodesAt, kept, hu']
      simp only [noFaults_apply, Node.isDir, Node.name, beq_iff_eq, hgit, Bool.true_and,
        Option.map_none', Option.isSome_none, Bool.false_or, if_false, if_true,
        decide_False, Bool.false_eq_true]
      simp only [entryOf, Node.isDir, Node.content, if_true] at ih ⊢
      rw [ih, hk]
      cases v <;> simp [printed, entryOf, Node.isDir, Node.content]
theorem walkChildren_exact (v : Bool) (sep : Char) (source rootName : Str)
    (hroot : rootName ≠ dotGit) :
    ∀ (cs : List Node) (comps : List Str) (st : WalkState),
      (∀ x ∈ comps, validName sep x = true) → wfList sep cs = true →
      dotGit ∉ comps →
      walkChildren v sep source noFaults (nodePath sep source comps) cs st =
        (⟨st.archive ++ kept rootName (nodesIn comps cs),
          st.stdout ++ printed v (kept rootName (nodesIn comps cs))⟩, none)
  | [], comps, st, _, _, _ => by
    simp [walkChildren, nodesIn, kept, printed_nil]
  | c :: cs, comps, st, hv, hwf, hg => by
    obtain ⟨hc, hcw, hcs⟩ := (wfList_cons sep c cs).mp hwf
    have h1 := walk_exact v sep source rootName hroot c comps st hv hc hcw hg
    rw [walkChildren, ← nodePath_snoc]
    simp only [noFaults_apply, h1]
    have h2 := walkChildren_exact v sep source rootName hroot cs comps
      ⟨st.archive ++ kept rootName (nodesAt comps c),
        st.stdout ++ printed v (kept rootName (nodesAt comps c))⟩ hv hcs hg
    have hcond : ((if (c.isDir && c.name == dotGit) = true then some Err.skipDir
        else none).isSome && (!c.isDir || (if (c.isDir && c.name == dotGit) = true
          then some Err.skipDir else none) != some Err.skipDir)) = false := by
      by_cases hh : (c.isDir && c.name == dotGit) = true
      · simp only [hh, if_true]
        simp only [Bool.and_eq_true] at hh
        simp [hh.1]
      · simp [hh]
    simp only [hcond, Bool.false_eq_true, if_false, h2, nodesIn, kept_append, printed_append,
      List.append_assoc]
end

/-! ## `zipToMem` as a whole -/

theorem TrimPrefix_self (s : Str) : TrimPrefix s s = [] := by
  simp [TrimPrefix, HasPrefix]

/-- The callback on the source directory itself writes nothing. -/
theorem walkFn_root (v : Bool) (sep : Char) (source : Str) (flt : FaultMap)
    (n : Str) (cs : List Node) (st : WalkState) :
    walkFn v sep source flt source (.dir n cs) none st =
      if n = dotGit then (st, some .skipDir)
      else
        match (flt source).headerErr with
        | some c => (st, some (.os c))
        | none => (st, none) := by
  unfold walkFn
  simp only [Node.isDir, Node.name, Bool.true_and, beq_iff_eq, FileInfoHeader, TrimPrefix_self,
    if_true]

theorem walkFn_root_state (v : Bool) (sep : Char) (source : Str) (flt : FaultMap)
    (n : Str) (cs : List Node) (err : Option Err) (st : WalkState) :
    (walkFn v sep source flt source (.dir n cs) err st).1 = st := by
  cases err with
  | some e => rw [walkFn_err_grows]
  | none =>
    rw [walkFn_root]
    split
    · rfl
    · split <;> rfl

theorem nodePath_nil (sep : Char) (source : Str) : nodePath sep source [] = source := rfl

/-- Whatever faults occur, the walk of a well-formed directory writes shaped entries
only. -/
theorem Walk_grows (v : Bool) (sep : Char) (source : Str) (flt : FaultMap)
    (n : Str) (cs : List Node) (st : WalkState) (hwf : wfList sep cs = true) :
    Grows sep st (Walk v sep source flt source (.dir n cs) st).1 := by
  have hroot : ∀ err, Grows sep st (walkFn v sep source flt source (.dir n cs) err st).1 := by
    intro err
    rw [walkFn_root_state]
    exact grows_refl sep st
  have hwalk : Grows sep st (walk v sep source flt source (.dir n cs) st).1 := by
    rw [walk]
    split
    · exact hroot _
    · have h := walkChildren_grows v sep source flt cs [] st (by simp) hwf
      rw [nodePath_nil] at h
      rw [walkFn_root_state]
      exact h
  unfold Walk
  cases (flt source).lstatErr with
  | some code =>
    simp only
    split
    · exact hroot _
    · exact hroot _
  | none =>
    simp only
    split
    · exact hwalk
    · exact hwalk

/-- The outcome of `zipToMem` on a directory: never an error. -/
theorem zipToMem_dir (env : FsEnv) (v : Bool) (source p n : Str) (cs : List Node)
    (habs : env.abs source = .ok p) (hlook : env.lookup p = .ok (.dir n cs)) :
    zipToMem env v source =
      ⟨some ⟨(Walk v env.sep p env.faults p (.dir n cs) ⟨[], []⟩).1.archive⟩, none,
        (Walk v env.sep p env.faults p (.dir n cs) ⟨[], []⟩).1.stdout⟩ := by
  simp [zipToMem, habs, hlook, Node.isDir]

theorem zipToMem_shaped (env : FsEnv) (v : Bool) (source p : Str) (T : Node) (a : Archive)
    (habs : env.abs source = .ok p) (hlook : env.lookup p = .ok T)
    (hwf : T.wf env.sep = true) (ha : (zipToMem env v source).data = some a) :
    ∀ e ∈ a.entries, Shaped env.sep e := by
  cases T with
  | file n b => simp [zipToMem, habs, hlook, Node.isDir] at ha
  | dir n cs =>
    rw [zipToMem_dir env v source p n cs habs hlook] at ha
    simp only [Option.some.injEq] at ha
    subst ha
    intro e he
    have h := Walk_grows v env.sep p env.faults n cs ⟨[], []⟩ (by simpa [Node.wf] using hwf) e he
    simpa using h

theorem kept_root_git (cs : List Node) : kept dotGit (nodesIn [] cs) = [] := by
  simp [kept, underGit]

/-- The archive of a run without faults is the list of the nodes outside every
`.git` subtree. -/
theorem zipToMem_exact (env : FsEnv) (v : Bool) (source p : Str) (T : Node)
    (habs : env.abs source = .ok p) (hlook : env.lookup p = .ok T)
    (hdir : T.isDir = true) (hflt : env.faults = noFaults) (hwf : T.wf env.sep = true) :
    zipToMem env v source =
      ⟨some ⟨kept T.name (nodesBelow T)⟩, none, printed v (kept T.name (nodesBelow T))⟩ := by
  cases T with
  | file n b => simp [Node.isDir] at hdir
  | dir n cs =>
    rw [zipToMem_dir env v source p n cs habs hlook, hflt]
    have hcs : wfList env.sep cs = true := by simpa [Node.wf] using hwf
    simp only [Walk, noFaults_apply, walk, Option.map_none', Option.isSome_none,
      Bool.false_or, walkFn_root, Node.name, nodesBelow]
    by_cases hg : n = dotGit
    · subst hg
      simp [kept_root_git, printed_nil]
    · have h := walkChildren_exact v env.sep p n hg cs [] ⟨[], []⟩ (by simp) hcs (by simp)
      rw [nodePath_nil] at h
      simp [hg, h]

/-! ## Names of the entries -/

theorem hasSuffix_slash_iff (s : Str) :
    HasSuffix s ['/'] = true ↔ s.getLast? = some '/' := by
  unfold HasSuffix
  rw [List.isSuffixOf_iff_suffix, List.getLast?_eq_some_iff]
  constructor
  · rintro ⟨t, ht⟩
    exact ⟨t, ht.symm⟩
  · rintro ⟨t, ht⟩
    exact ⟨t, ht.symm⟩

theorem validName_slash {sep : Char} {c : Str} (h : validName sep c = true) :
    validName '/' c = true := by
  obtain ⟨h1, h2, _⟩ := (validName_iff sep c).mp h
  exact (validName_iff '/' c).mpr ⟨h1, h2, h2⟩

theorem render_dir_suffix (comps : List Str) : HasSuffix (render comps true) ['/'] = true := by
  rw [hasSuffix_slash_iff]
  simp [render]

theorem render_file_suffix (sep : Char) (comps : List Str) (hne : comps ≠ [])
    (hv : ∀ x ∈ comps, validName sep x = true) :
    HasSuffix (render comps false) ['/'] = false := by
  cases comps with
  | nil => exact absurd rfl hne
  | cons c cs =>
    have h := getLast?_sepAll '/' c cs (validName_slash (hv c (by simp)))
      (fun x hx => validName_slash (hv x (by simp [hx])))
    have : ¬ HasSuffix (render (c :: cs) false) ['/'] = true := by
      rw [hasSuffix_slash_iff]
      simpa [render, intercalate_cons_eq] using h.2
    simpa using this

theorem render_no_leading_slash (sep : Char) (comps : List Str) (d : Bool) (hne : comps ≠ [])
    (hv : ∀ x ∈ comps, validName sep x = true) :
    HasPrefix (render comps d) ['/'] = false := by
  cases comps with
  | nil => exact absurd rfl hne
  | cons c cs =>
    obtain ⟨h1, h2, _⟩ := (validName_iff sep c).mp (hv c (by simp))
    cases c with
    | nil => exact absurd rfl h1
    | cons x xs =>
      simp only [List.mem_cons, not_or] at h2
      simp [render, intercalate_cons_eq, HasPrefix, List.isPrefixOf, h2.1]

theorem mem_sepAll {sep x : Char} {cs : List Str} (h : x ∈ sepAll sep cs) :
    x = sep ∨ ∃ c ∈ cs, x ∈ c := by
  induction cs with
  | nil => simp [sepAll] at h
  | cons d ds ih =>
    simp only [sepAll, List.mem_cons, List.mem_append] at h
    rcases h with (h | h) | h
    · exact Or.inl h
    · exact Or.inr ⟨d, by simp, h⟩
    · rcases ih h with h' | ⟨c, hc, hx⟩
      · exact Or.inl h'
      · exact Or.inr ⟨c, by simp [hc], hx⟩

theorem mem_render {x : Char} {comps : List Str} {d : Bool} (h : x ∈ render comps d) :
    x = '/' ∨ ∃ c ∈ comps, x ∈ c := by
  cases comps with
  | nil =>
    cases d <;> simp [render, List.intercalate] at h
    exact Or.inl h
  | cons c cs =>
    simp only [render, intercalate_cons_eq, List.mem_append] at h
    rcases h with (h | h) | h
    · exact Or.inr ⟨c, by simp, h⟩
    · rcases mem_sepAll h with h' | ⟨c', hc, hx⟩
      · exact Or.inl h'
      · exact Or.inr ⟨c', by simp [hc], hx⟩
    · cases d <;> simp at h
      exact Or.inl h

theorem render_not_under_source (sep : Char) (source : Str) (comps : List Str) (d : Bool)
    (hne : comps ≠ []) (hv : ∀ x ∈ comps, validName sep x = true)
    (habs : source.head? = some '/' ∨ (sep ≠ '/' ∧ sep ∈ source)) :
    HasPrefix (render comps d) source = false := by
  have hslash := render_no_leading_slash sep comps d hne hv
  have : ¬ HasPrefix (render comps d) source = true := by
    unfold HasPrefix
    rw [List.isPrefixOf_iff_prefix]
    intro hp
    rcases habs with h | ⟨h1, h2⟩
    · cases source with
      | nil => simp at h
      | cons y ys =>
        simp only [List.head?_cons, Option.some.injEq] at h
        subst h
        have : HasPrefix (render comps d) ['/'] = true := by
          unfold HasPrefix
          rw [List.isPrefixOf_iff_prefix]
          obtain ⟨t, ht⟩ := hp
          exact ⟨ys ++ t, by simpa using ht⟩
        rw [hslash] at this
        exact Bool.noConfusion this
    · rcases mem_render (hp.subset h2) with h | ⟨c, hc, hx⟩
      · exact h1 h
      · exact ((validName_iff sep c).mp (hv c hc)).2.2 hx
  simpa using this

/-! ## The claims about `zipToMem` -/

/-- C5, as stated, fails: with source `/a` the directory `/a/b/a` is archived under
the name `b/a/`, which contains the text `/a` of the source path. -/
theorem zipToMem_name_contains_source :
    (zipToMem (unixEnv "/a".toList
        (.dir "a".toList [.dir "b".toList [.dir "a".toList []]]) noFaults)
      false "/a".toList).data =
      some ⟨[⟨⟨"b/".toList, .Store, true⟩, []⟩, ⟨⟨"b/a/".toList, .Store, true⟩, []⟩]⟩ ∧
    "/a".toList <:+: "b/a/".toList := by
  decide

/-- C5, amended. For an absolute source path (one that begins with `/` or, on a host
whose separator is not `/`, contains that separator) and a source tree whose nodes
have valid file names, no entry name `zipToMem` computes begins with `/` and none
begins with the source path; the source directory itself has the empty stripped
name and the callback leaves the archive and the output as they are. This holds
whatever steps of the walk fail. -/
theorem zipToMem_names_relative (env : FsEnv) (v : Bool) (source p : Str) (T : Node)
    (a : Archive) (habs : env.abs source = .ok p) (hlook : env.lookup p = .ok T)
    (hwf : T.wf env.sep = true)
    (hp : p.head? = some '/' ∨ (env.sep ≠ '/' ∧ env.sep ∈ p))
    (ha : (zipToMem env v source).data = some a) :
    (∀ e ∈ a.entries,
      HasPrefix e.header.Name ['/'] = false ∧ HasPrefix e.header.Name p = false) ∧
    TrimPrefix p p = [] ∧
    ∀ (err : Option Err) (st : WalkState), (walkFn v env.sep p env.faults p T err st).1 = st := by
  refine ⟨?_, TrimPrefix_self p, ?_⟩
  · intro e he
    obtain ⟨comps, d, hne, hv, hh, _⟩ :=
      zipToMem_shaped env v source p T a habs hlook hwf ha e he
    rw [hh]
    exact ⟨render_no_leading_slash env.sep comps d hne hv,
      render_not_under_source env.sep p comps d hne hv hp⟩
  · intro err st
    cases T with
    | file n b => simp [zipToMem, habs, hlook, Node.isDir] at ha
    | dir n cs => exact walkFn_root_state v env.sep p env.faults n cs err st

/-- The amended statement of C5 on the sample directory at `/app`. -/
theorem zipToMem_names_relative_witness :
    sampleTree.wf '/' = true ∧
    (zipToMem sampleEnv false "/app".toList).data = some sampleArchive ∧
    (∀ e ∈ sampleArchive.entries,
      HasPrefix e.header.Name ['/'] = false ∧
        HasPrefix e.header.Name "/app".toList = false) ∧
    TrimPrefix "/app".toList "/app".toList = [] ∧
    ∀ (err : Option Err) (st : WalkState),
      (walkFn false '/' "/app".toList noFaults "/app".toList sampleTree err st).1 = st :=
  ⟨by decide, by decide,
    zipToMem_names_relative sampleEnv false "/app".toList "/app".toList sampleTree
      sampleArchive rfl rfl (by decide) (Or.inl (by decide)) (by decide)⟩

/-- C1 fails on the code. When `os.Open` of `/app/a.js` fails, the walk stops with
that error, and `zipToMem` still returns a nil error together with the archive
written so far, whose entry `a.js` has no payload. -/
theorem zipToMem_drops_walk_error :
    (Walk false '/' "/app".toList deniedEnv.faults "/app".toList sampleTree ⟨[], []⟩).2 =
      some (.os 13) ∧
    zipToMem deniedEnv false "/app".toList =
      ⟨some ⟨[⟨⟨"a.js".toList, .Deflate, false⟩, []⟩]⟩, none, []⟩ := by
  decide

/-! ## Entry names determine the node -/

theorem split_unique : ∀ (a b x y : Str), '/' ∉ a → '/' ∉ b →
    (x = [] ∨ x.head? = some '/') → (y = [] ∨ y.head? = some '/') →
    a ++ x = b ++ y → a = b ∧ x = y
  | [], [], x, y, _, _, _, _, h => ⟨rfl, by simpa using h⟩
  | [], h :: t, x, y, _, hb, hx, _, he => by
    simp only [List.nil_append, List.cons_append] at he
    subst he
    simp only [List.mem_cons, not_or] at hb
    rcases hx with hx | hx
    · simp at hx
    · simp only [List.head?_cons, Option.some.injEq] at hx
      exact absurd hx.symm hb.1
  | h :: t, [], x, y, ha, _, _, hy, he => by
    simp only [List.nil_append, List.cons_append] at he
    subst he
    simp only [List.mem_cons, not_or] at ha
    rcases hy with hy | hy
    · simp at hy
    · simp only [List.head?_cons, Option.some.injEq] at hy
      exact absurd hy.symm ha.1
  | h :: t, h' :: t', x, y, ha, hb, hx, hy, he => by
    simp only [List.cons_append, List.cons.injEq] at he
    simp only [List.mem_cons, not_or] at ha hb
    obtain ⟨h1, h2⟩ := split_unique t t' x y ha.2 hb.2 hx hy he.2
    exact ⟨by rw [he.1, h1], h2⟩

theorem sepAll_head (cs : List Str) :
    sepAll '/' cs = [] ∨ (sepAll '/' cs).head? = some '/' := by
  cases cs <;> simp [sepAll]

theorem sepAll_inj : ∀ (cs cs' : List Str), (∀ x ∈ cs, '/' ∉ x) → (∀ x ∈ cs', '/' ∉ x) →
    sepAll '/' cs = sepAll '/' cs' → cs = cs'
  | [], [], _, _, _ => rfl
  | [], d :: ds, _, _, h => by simp [sepAll] at h
  | d :: ds, [], _, _, h => by simp [sepAll] at h
  | d :: ds, d' :: ds', h1, h2, h => by
    simp only [sepAll, List.cons_append, List.cons.injEq, true_and] at h
    obtain ⟨hd, hs⟩ := split_unique d d' _ _ (h1 d (by simp)) (h2 d' (by simp))
      (sepAll_head ds) (sepAll_head ds') h
    rw [hd, sepAll_inj ds ds' (fun x hx => h1 x (by simp [hx]))
      (fun x hx => h2 x (by simp [hx])) hs]

theorem render_inj (sep : Char) (c1 c2 : List Str) (d1 d2 : Bool)
    (hne1 : c1 ≠ []) (hne2 : c2 ≠ [])
    (hv1 : ∀ x ∈ c1, validName sep x = true) (hv2 : ∀ x ∈ c2, validName sep x = true)
    (h : render c1 d1 = render c2 d2) : c1 = c2 ∧ d1 = d2 := by
  have hd : d1 = d2 := by
    have s1 : HasSuffix (render c1 d1) ['/'] = d1 := by
      cases d1
      · exact render_file_suffix sep c1 hne1 hv1
      · exact render_dir_suffix c1
    have s2 : HasSuffix (render c2 d2) ['/'] = d2 := by
      cases d2
      · exact render_file_suffix sep c2 hne2 hv2
      · exact render_dir_suffix c2
    rw [← s1, ← s2, h]
  subst hd
  refine ⟨?_, rfl⟩
  have hi : ['/'].intercalate c1 = ['/'].intercalate c2 := by
    simpa [render] using h
  have n1 : ∀ x ∈ c1, '/' ∉ x := fun x hx => ((validName_iff sep x).mp (hv1 x hx)).2.1
  have n2 : ∀ x ∈ c2, '/' ∉ x := fun x hx => ((validName_iff sep x).mp (hv2 x hx)).2.1
  cases c1 with
  | nil => exact absurd rfl hne1
  | cons a as =>
    cases c2 with
    | nil => exact absurd rfl hne2
    | cons b bs =>
      rw [intercalate_cons_eq, intercalate_cons_eq] at hi
      obtain ⟨hab, hs⟩ := split_unique a b _ _ (n1 a (by simp)) (n2 b (by simp))
        (sepAll_head as) (sepAll_head bs) hi
      rw [hab, sepAll_inj as bs (fun x hx => n1 x (by simp [hx]))
        (fun x hx => n2 x (by simp [hx])) hs]

mutual
theorem nodesAt_inv (sep : Char) : ∀ (node : Node) (comps : List Str) (q : List Str × Node),
    validName sep node.name = true → node.wf sep = true → q ∈ nodesAt comps node →
    ∃ rest, rest ≠ [] ∧ q.1 = comps ++ rest ∧ (∀ x ∈ rest, validName sep x = true) ∧
      rest.getLast? = some q.2.name
  | .file n b, comps, q, hn, _, hq => by
    simp only [nodesAt, List.mem_singleton] at hq
    subst hq
    exact ⟨[n], by simp, rfl, by simpa [Node.name] using hn, by simp [Node.name]⟩
  | .dir n cs, comps, q, hn, hwf, hq => by
    simp only [nodesAt, List.mem_cons] at hq
    rcases hq with hq | hq
    · subst hq
      exact ⟨[n], by simp, rfl, by simpa [Node.name] using hn, by simp [Node.name]⟩
    · obtain ⟨rest, hne, h1, h2, h3⟩ :=
        nodesIn_inv sep cs (comps ++ [n]) q (by simpa [Node.wf] using hwf) hq
      refine ⟨n :: rest, by simp, by simp [h1], ?_, ?_⟩
      · intro x hx
        rcases List.mem_cons.mp hx with h | h
        · rw [h]; simpa [Node.name] using hn
        · exact h2 x h
      · rw [← h3]
        cases rest with
        | nil => exact absurd rfl hne
        | cons r rs => simp [List.getLast?_cons_cons]
theorem nodesIn_inv (sep : Char) : ∀ (cs : List Node) (comps : List Str)
    (q : List Str × Node), wfList sep cs = true → q ∈ nodesIn comps cs →
    ∃ rest, rest ≠ [] ∧ q.1 = comps ++ rest ∧ (∀ x ∈ rest, validName sep x = true) ∧
      rest.getLast? = some q.2.name
  | [], _, q, _, hq => by simp [nodesIn] at hq
  | c :: cs, comps, q, hwf, hq => by
    obtain ⟨hc, hcw, hcs⟩ := (wfList_cons sep c cs).mp hwf
    simp only [nodesIn, List.mem_append] at hq
    rcases hq with hq | hq
    · exact nodesAt_inv sep c comps q hc hcw hq
    · exact nodesIn_inv sep cs comps q hcs hq
end

/-! ## Under faults, every entry still belongs to a node outside `.git` -/

theorem growsIn_refl (rootName : Str) (l : List (List Str × Node)) (st : WalkState) :
    GrowsIn rootName l st st :=
  fun _ he => Or.inl he

theorem growsIn_trans {rootName : Str} {l1 l2 l : List (List Str × Node)}
    {a b c : WalkState} (h1 : GrowsIn rootName l1 a b) (h2 : GrowsIn rootName l2 b c)
    (s1 : l1 ⊆ l) (s2 : l2 ⊆ l) : GrowsIn rootName l a c := by
  intro e he
  rcases h2 e he with h | ⟨q, hq, h⟩
  · rcases h1 e h with h' | ⟨q, hq, h'⟩
    · exact Or.inl h'
    · exact Or.inr ⟨q, s1 hq, h'⟩
  · exact Or.inr ⟨q, s2 hq, h⟩

theorem growsIn_mono {rootName : Str} {l1 l : List (List Str × Node)} {a b : WalkState}
    (h : GrowsIn rootName l1 a b) (s : l1 ⊆ l) : GrowsIn rootName l a b :=
  growsIn_trans (growsIn_refl rootName l1 a) h s s

theorem walkFn_growsIn (v : Bool) (sep : Char) (source rootName : Str) (flt : FaultMap)
    (comps : List Str) (node : Node) (st : WalkState)
    (hv : ∀ x ∈ comps ++ [node.name], validName sep x = true)
    (hroot : rootName ≠ dotGit) (hg : dotGit ∉ comps) :
    GrowsIn rootName [(comps ++ [node.name], node)] st
      (walkFn v sep source flt (nodePath sep source (comps ++ [node.name])) node none st).1 := by
  intro e he
  rw [walkFn_below v sep source flt _ node st (by simp) hv] at he
  have hu := underGit_node rootName comps node hroot hg
  generalize flt (nodePath sep source (comps ++ [node.name])) = F at he
  rcases F with ⟨f1, f2, f3, f4, f5, f6⟩
  by_cases hgit : (node.isDir && node.name == dotGit) = true
  · simp only [hgit, if_true] at he
    exact Or.inl he
  · have hout : underGit rootName (comps ++ [node.name], node) = false := by
      rw [hu]; simpa using hgit
    have key : ∀ b : Bytes, b <+: node.content →
        e = ⟨⟨render (comps ++ [node.name]) node.isDir,
          if node.isDir then .Store else .Deflate, node.isDir⟩, b⟩ →
        ∃ q ∈ [(comps ++ [node.name], node)], underGit rootName q = false ∧
          e.header = (entryOf q).header ∧ e.payload <+: q.2.content := by
      intro b hb hb'
      refine ⟨_, List.mem_singleton.mpr rfl, hout, ?_, ?_⟩
      · rw [hb']; rfl
      · rw [hb']; exact hb
    have hdirc : node.isDir = true → node.content = [] := by
      cases node <;> simp [Node.isDir, Node.content]
    simp only [hgit, if_false, Bool.false_eq_true] at he
    rcases f3 with _ | f3 <;> rcases f4 with _ | f4 <;> rcases f5 with _ | f5 <;>
    rcases f6 with _ | ⟨n, c⟩ <;>
    cases hd : node.isDir <;>
    simp only [hd, Bool.false_eq_true, if_false, if_true, List.mem_append,
      List.mem_singleton] at he <;>
    first
      | exact Or.inl he
      | (rcases he with h | h
         · exact Or.inl h
         · refine Or.inr (key _ ?_ (by rw [h, hd]; rfl))
           first
             | exact List.nil_prefix
             | exact List.take_prefix _ _
             | exact List.prefix_refl _)

mutual
theorem walk_growsIn (v : Bool) (sep : Char) (source rootName : Str) (flt : FaultMap)
    (hroot : rootName ≠ dotGit) :
    ∀ (node : Node) (comps : List Str) (st : WalkState),
      (∀ x ∈ comps, validName sep x = true) → validName sep node.name = true →
      node.wf sep = true → dotGit ∉ comps →
      GrowsIn rootName (nodesAt comps node) st
        (walk v sep source flt (nodePath sep source (comps ++ [node.name])) node st).1
  | .file n b, comps, st, hv, hn, _, hg => by
    have hv' : ∀ x ∈ comps ++ [n], validName sep x = true := by
      intro x hx
      rcases List.mem_append.mp hx with h | h
      · exact hv x h
      · rw [List.mem_singleton.mp h]; exact hn
    rw [walk]
    exact walkFn_growsIn v sep source rootName flt comps (.file n b) st hv' hroot hg
  | .dir n cs, comps, st, hv, hn, hwf, hg => by
    have hv' : ∀ x ∈ comps ++ [n], validName sep x = true := by
      intro x hx
      rcases List.mem_append.mp hx with h | h
      · exact hv x h
      · rw [List.mem_singleton.mp h]; exact hn
    have hself := walkFn_growsIn v sep source rootName flt comps (.dir n cs) st hv' hroot hg
    simp only [Node.name] at hself ⊢
    rw [walk]
    cases hrd : (flt (nodePath sep source (comps ++ [n]))).readDirErr with
    | some c =>
      simp only [Option.map_some', Option.isSome_some, Bool.true_or, if_true, walkFn_err_grows]
      exact growsIn_refl rootName _ st
    | none =>
      simp only [Option.map_none', Option.isSome_none, Bool.false_or]
      split
      · exact growsIn_mono hself (by simp [nodesAt])
      · next hok =>
        by_cases hgit : n = dotGit
        · exfalso
          apply hok
          rw [walkFn_below v sep source flt _ _ st (by simp) hv']
          simp [Node.isDir, Node.name, hgit]
        · have hg' : dotGit ∉ comps ++ [n] := by
            simp [hg, Ne.symm hgit]
          exact growsIn_trans hself
            (walkChildren_growsIn v sep source rootName flt hroot cs (comps ++ [n]) _ hv'
              (by simpa [Node.wf] using hwf) hg')
            (by simp [nodesAt]) (by simp [nodesAt])
theorem walkChildren_growsIn (v : Bool) (sep : Char) (source rootName : Str)
    (flt : FaultMap) (hroot : rootName ≠ dotGit) :
    ∀ (cs : List Node) (comps : List Str) (st : WalkState),
      (∀ x ∈ comps, validName sep x = true) → wfList sep cs = true → dotGit ∉ comps →
      GrowsIn rootName (nodesIn comps cs) st
        (walkChildren v sep source flt (nodePath sep source comps) cs st).1
  | [], comps, st, _, _, _ => by
    rw [walkChildren]
    exact growsIn_refl rootName _ st
  | c :: cs, comps, st, hv, hwf, hg => by
    obtain ⟨hc, hcw, hcs⟩ := (wfList_cons sep c cs).mp hwf
    rw [walkChildren, ← nodePath_snoc]
    cases (flt (nodePath sep source (comps ++ [c.name]))).lstatErr with
    | some code =>
      simp only [walkFn_err_grows]
      split
      · exact growsIn_refl rootName _ st
      · exact growsIn_mono
          (walkChildren_growsIn v sep source rootName flt hroot cs comps st hv hcs hg)
          (by simp [nodesIn])
    | none =>
      simp only
      have h1 := walk_growsIn v sep source rootName flt hroot c comps st hv hc hcw hg
      split
      · exact growsIn_mono h1 (by simp [nodesIn])
      · exact growsIn_trans h1
          (walkChildren_growsIn v sep source rootName flt hroot cs comps _ hv hcs hg)
          (by simp [nodesIn]) (by simp [nodesIn])
end

theorem Walk_root_git (v : Bool) (sep : Char) (source : Str) (flt : FaultMap)
    (cs : List Node) (st : WalkState) :
    (Walk v sep source flt source (.dir dotGit cs) st).1 = st := by
  have hwalk : (walk v sep source flt source (.dir dotGit cs) st).1 = st := by
    rw [walk]
    cases (flt source).readDirErr with
    | some c => simp [walkFn_err_grows]
    | none => simp [walkFn_root]
  unfold Walk
  cases (flt source).lstatErr with
  | some code => simp only [walkFn_err_grows]; split <;> rfl
  | none => simp only; split <;> exact hwalk

/-- Whatever faults occur, every entry the walk writes is the entry of a node outside
every `.git` subtree. -/
theorem Walk_growsIn (v : Bool) (sep : Char) (source : Str) (flt : FaultMap)
    (n : Str) (cs : List Node) (st : WalkState) (hwf : wfList sep cs = true) :
    GrowsIn n (nodesIn [] cs) st (Walk v sep source flt source (.dir n cs) st).1 := by
  by_cases hg : n = dotGit
  · subst hg
    rw [Walk_root_git]
    exact growsIn_refl _ _ st
  · have hroot : ∀ err, GrowsIn n (nodesIn [] cs) st
        (walkFn v sep source flt source (.dir n cs) err st).1 := by
      intro err
      rw [walkFn_root_state]
      exact growsIn_refl _ _ st
    have hwalk : GrowsIn n (nodesIn [] cs) st (walk v sep source flt source (.dir n cs) st).1 := by
      rw [walk]
      split
      · exact hroot _
      · have h := walkChildren_growsIn v sep source n flt hg cs [] st (by simp) hwf (by simp)
        rw [nodePath_nil] at h
        rw [walkFn_root_state]
        exact h
    unfold Walk
    cases (flt source).lstatErr with
    | some code => simp only; split <;> exact hroot _
    | none => simp only; split <;> exact hwalk

theorem name_separates (sep : Char) (rootName : Str) (cs : List Node)
    (hwf : wfList sep cs = true) (q q' : List Str × Node) (hq : q ∈ nodesIn [] cs)
    (hq' : q' ∈ nodesIn [] cs) (hu : underGit rootName q = true)
    (hu' : underGit rootName q' = false) :
    render q'.1 q'.2.isDir ≠ render q.1 q.2.isDir := by
  intro hname
  obtain ⟨r, hr, h1, h2, h3⟩ := nodesIn_inv sep cs [] q hwf hq
  obtain ⟨r', hr', h1', h2', h3'⟩ := nodesIn_inv sep cs [] q' hwf hq'
  simp only [List.nil_append] at h1 h1'
  obtain ⟨hc, hd⟩ := render_inj sep q'.1 q.1 _ _ (h1' ▸ hr') (h1 ▸ hr)
    (h1' ▸ h2') (h1 ▸ h2) hname
  have hn : q'.2.name = q.2.name := by
    have := h3'
    rw [← h1', hc, h1, h3] at this
    exact (Option.some.inj this).symm
  have : underGit rootName q' = underGit rootName q := by
    simp only [underGit, hc, hd, hn]
  rw [this, hu] at hu'
  simp at hu'

/-- Whatever faults occur, every entry of the archive `zipToMem` returns is the entry
of a node of the source tree outside every `.git` subtree, with an initial part of
the file's bytes as payload. -/
theorem zipToMem_from_nodes (env : FsEnv) (v : Bool) (source p : Str) (T : Node)
    (a : Archive) (habs : env.abs source = .ok p) (hlook : env.lookup p = .ok T)
    (hwf : T.wf env.sep = true) (ha : (zipToMem env v source).data = some a) :
    ∀ e ∈ a.entries, ∃ q ∈ nodesBelow T, underGit T.name q = false ∧
      e.header = (entryOf q).header ∧ e.payload <+: q.2.content := by
  cases T with
  | file n b => simp [zipToMem, habs, hlook, Node.isDir] at ha
  | dir n cs =>
    rw [zipToMem_dir env v source p n cs habs hlook] at ha
    simp only [Option.some.injEq] at ha
    subst ha
    intro e he
    rcases Walk_growsIn v env.sep p env.faults n cs ⟨[], []⟩
      (by simpa [Node.wf] using hwf) e he with h | h
    · simp at h
    · exact h

theorem nodesBelow_valid (sep : Char) (T : Node) (hwf : T.wf sep = true)
    (q : List Str × Node) (hq : q ∈ nodesBelow T) :
    q.1 ≠ [] ∧ ∀ x ∈ q.1, validName sep x = true := by
  cases T with
  | file n b => simp [nodesBelow] at hq
  | dir n cs =>
    obtain ⟨r, hr, h1, h2, _⟩ :=
      nodesIn_inv sep cs [] q (by simpa [Node.wf] using hwf) hq
    simp only [List.nil_append] at h1
    rw [h1]
    exact ⟨hr, h2⟩

/-- C4. Every entry `zipToMem` writes belongs to a visited node of the source tree
and carries that node's kind. If the node is a directory, the entry name ends in
`/`, the entry has no payload and its method is not Deflate; if the node is a file,
the entry name does not end in `/` and the method is Deflate. This holds whatever
steps of the walk fail, for every source tree whose nodes have valid file names. -/
theorem zipToMem_entry_kinds (env : FsEnv) (v : Bool) (source p : Str) (T : Node)
    (a : Archive) (habs : env.abs source = .ok p) (hlook : env.lookup p = .ok T)
    (hwf : T.wf env.sep = true) (ha : (zipToMem env v source).data = some a) :
    ∀ e ∈ a.entries, ∃ q ∈ nodesBelow T, e.header.IsDir = q.2.isDir ∧
      (q.2.isDir = true →
        HasSuffix e.header.Name ['/'] = true ∧ e.payload = [] ∧
          e.header.Method ≠ .Deflate) ∧
      (q.2.isDir = false →
        HasSuffix e.header.Name ['/'] = false ∧ e.header.Method = .Deflate) := by
  intro e he
  obtain ⟨q, hq, _, hh, hpay⟩ := zipToMem_from_nodes env v source p T a habs hlook hwf ha e he
  obtain ⟨hne, hv⟩ := nodesBelow_valid env.sep T hwf q hq
  refine ⟨q, hq, by rw [hh]; rfl, ?_, ?_⟩
  · intro hd
    have hc : q.2.content = [] := by
      cases hq2 : q.2 with
      | file n b => rw [hq2] at hd; simp [Node.isDir] at hd
      | dir n cs => rfl
    rw [hc] at hpay
    refine ⟨?_, List.prefix_nil.mp hpay, ?_⟩
    · rw [hh]
      simp only [entryOf, hd]
      exact render_dir_suffix q.1
    · rw [hh]
      simp [entryOf, hd]
  · intro hd
    refine ⟨?_, ?_⟩
    · rw [hh]
      simp only [entryOf, hd]
      exact render_file_suffix env.sep q.1 hne hv
    · rw [hh]
      simp [entryOf, hd]

/-- The statement of C4 on the sample directory and its archive. -/
theorem zipToMem_entry_kinds_witness :
    sampleTree.wf '/' = true ∧
    (zipToMem sampleEnv false "/app".toList).data = some sampleArchive ∧
    ∀ e ∈ sampleArchive.entries, ∃ q ∈ nodesBelow sampleTree, e.header.IsDir = q.2.isDir ∧
      (q.2.isDir = true →
        HasSuffix e.header.Name ['/'] = true ∧ e.payload = [] ∧
          e.header.Method ≠ .Deflate) ∧
      (q.2.isDir = false →
        HasSuffix e.header.Name ['/'] = false ∧ e.header.Method = .Deflate) :=
  ⟨by decide, by decide,
    zipToMem_entry_kinds sampleEnv false "/app".toList "/app".toList sampleTree sampleArchive
      rfl rfl (by decide) (by decide)⟩

/-- C3. For a source directory whose nodes have valid file names, `zipToMem` returns
an archive in which every entry is the entry of a node that lies outside every
subtree rooted at a directory named `.git`, so that no entry bears the name of such
a directory or of a node below it, at any depth; this holds whatever steps of the
walk fail. In a run without faults the archive lists exactly the nodes outside
these subtrees, in walk order: each of them has its entry. -/
theorem zipToMem_skips_git (env : FsEnv) (v : Bool) (source p : Str) (T : Node)
    (habs : env.abs source = .ok p) (hlook : env.lookup p = .ok T)
    (hdir : T.isDir = true) (hwf : T.wf env.sep = true) :
    ∃ a, (zipToMem env v source).data = some a ∧ (zipToMem env v source).err = none ∧
      (∀ e ∈ a.entries, ∃ q ∈ nodesBelow T, underGit T.name q = false ∧
        e.header = (entryOf q).header ∧ e.payload <+: q.2.content) ∧
      (∀ q ∈ nodesBelow T, underGit T.name q = true →
        ∀ e ∈ a.entries, e.header.Name ≠ render q.1 q.2.isDir) ∧
      (env.faults = noFaults →
        a.entries = ((nodesBelow T).filter (fun q => !underGit T.name q)).map entryOf ∧
        ∀ q ∈ nodesBelow T, underGit T.name q = false → entryOf q ∈ a.entries) := by
  cases T with
  | file n b => simp [Node.isDir] at hdir
  | dir n cs =>
    have hcs : wfList env.sep cs = true := by simpa [Node.wf] using hwf
    have hz := zipToMem_dir env v source p n cs habs hlook
    have hin : ∀ e ∈ (Walk v env.sep p env.faults p (.dir n cs) ⟨[], []⟩).1.archive,
        ∃ q ∈ nodesIn [] cs, underGit n q = false ∧
          e.header = (entryOf q).header ∧ e.payload <+: q.2.content := by
      intro e he
      rcases Walk_growsIn v env.sep p env.faults n cs ⟨[], []⟩ hcs e he with h | h
      · simp at h
      · exact h
    refine ⟨⟨(Walk v env.sep p env.faults p (.dir n cs) ⟨[], []⟩).1.archive⟩,
      by rw [hz], by rw [hz], hin, ?_, ?_⟩
    · intro q hq hu e he hname
      obtain ⟨q', hq', hu', hh, _⟩ := hin e he
      have : render q'.1 q'.2.isDir = render q.1 q.2.isDir := by
        rw [← hname, hh]; rfl
      exact name_separates env.sep n cs hcs q q' hq hq' hu hu' this
    · intro hflt
      have hex := zipToMem_exact env v source p (.dir n cs) habs hlook hdir hflt hwf
      rw [hz] at hex
      have hk : (Walk v env.sep p env.faults p (.dir n cs) ⟨[], []⟩).1.archive =
          kept n (nodesIn [] cs) := by
        have := congrArg ZipResult.data hex
        simpa [nodesBelow, Node.name] using this
      simp only [hk, Node.name, nodesBelow]
      refine ⟨rfl, ?_⟩
      intro q hq hu
      simp only [kept, List.mem_map, List.mem_filter]
      exact ⟨q, ⟨hq, by simp [hu]⟩, rfl⟩

/-- The statement of C3 on the sample directory, whose `.git` directory is left out. -/
theorem zipToMem_skips_git_witness :
    sampleTree.isDir = true ∧ sampleTree.wf '/' = true ∧
    (zipToMem sampleEnv true "/app".toList).data = some sampleArchive ∧
    ∃ a, (zipToMem sampleEnv true "/app".toList).data = some a ∧
      (zipToMem sampleEnv true "/app".toList).err = none ∧
      (∀ e ∈ a.entries, ∃ q ∈ nodesBelow sampleTree, underGit sampleTree.name q = false ∧
        e.header = (entryOf q).header ∧ e.payload <+: q.2.content) ∧
      (∀ q ∈ nodesBelow sampleTree, underGit sampleTree.name q = true →
        ∀ e ∈ a.entries, e.header.Name ≠ render q.1 q.2.isDir) ∧
      (sampleEnv.faults = noFaults →
        a.entries =
          ((nodesBelow sampleTree).filter (fun q => !underGit sampleTree.name q)).map entryOf ∧
        ∀ q ∈ nodesBelow sampleTree, underGit sampleTree.name q = false →
          entryOf q ∈ a.entries) :=
  ⟨rfl, by decide, by decide,
    zipToMem_skips_git sampleEnv true "/app".toList "/app".toList sampleTree rfl rfl rfl
      (by decide)⟩

/-! ## Archiving and extracting -/

theorem extractFiles_append (a b : List Entry) :
    extractFiles ⟨a ++ b⟩ = extractFiles ⟨a⟩ ++ extractFiles ⟨b⟩ := by
  simp [extractFiles]

theorem render_snoc (comps : List Str) (n : Str) :
    render (comps ++ [n]) false = dirPrefix comps ++ n := by
  induction comps with
  | nil => simp [render, dirPrefix, List.intercalate]
  | cons c cs ih =>
    cases cs with
    | nil => simp [render, dirPrefix, intercalate_cons_eq, sepAll]
    | cons d ds =>
      simp only [render, List.append_nil, List.cons_append, intercalate_cons_eq] at ih ⊢
      simp only [sepAll, dirPrefix, List.map_cons, List.flatten_cons, List.append_assoc,
        List.cons_append, List.nil_append, List.singleton_append] at ih ⊢
      rw [ih]

theorem dirPrefix_snoc (comps : List Str) (n : Str) :
    dirPrefix (comps ++ [n]) = dirPrefix comps ++ n ++ ['/'] := by
  simp [dirPrefix]

mutual
theorem extract_nodesAt (sep : Char) (rootName : Str) (hroot : rootName ≠ dotGit) :
    ∀ (node : Node) (comps : List Str), (∀ x ∈ comps, validName sep x = true) →
      validName sep node.name = true → node.wf sep = true → dotGit ∉ comps →
      node.hasGitDir = false →
      extractFiles ⟨kept rootName (nodesAt comps node)⟩ = relFilesAt (dirPrefix comps) node
  | .file n b, comps, hv, hn, _, hg, _ => by
    have hv' : ∀ x ∈ comps ++ [n], validName sep x = true := by
      intro x hx
      rcases List.mem_append.mp hx with h | h
      · exact hv x h
      · rw [List.mem_singleton.mp h]; exact hn
    have hu := underGit_node rootName comps (.file n b) hroot hg
    simp only [Node.name, Node.isDir, Bool.false_and] at hu
    have hs := render_file_suffix sep (comps ++ [n]) (by simp) hv'
    rw [render_snoc] at hs
    simp [nodesAt, kept, hu, extractFiles, entryOf, Entry.isDirKind, Node.isDir, hs,
      Node.content, relFilesAt, render_snoc]
  | .dir n cs, comps, hv, hn, hwf, hg, hgit => by
    have hv' : ∀ x ∈ comps ++ [n], validName sep x = true := by
      intro x hx
      rcases List.mem_append.mp hx with h | h
      · exact hv x h
      · rw [List.mem_singleton.mp h]; exact hn
    simp only [Node.hasGitDir, Bool.or_eq_false_iff, beq_eq_false_iff_ne, ne_eq] at hgit
    have hu := underGit_node rootName comps (.dir n cs) hroot hg
    simp only [Node.name, Node.isDir, Bool.true_and] at hu
    have hu' : underGit rootName (comps ++ [n], .dir n cs) = false := by
      rw [hu]; simp [hgit.1]
    have hg' : dotGit ∉ comps ++ [n] := by
      simp [hg, Ne.symm hgit.1]
    have ih := extract_nodesIn sep rootName hroot cs (comps ++ [n]) hv'
      (by simpa [Node.wf] using hwf) hg' hgit.2
    have hk : kept rootName (nodesAt comps (.dir n cs)) =
        [entryOf (comps ++ [n], .dir n cs)] ++ kept rootName (nodesIn (comps ++ [n]) cs) := by
      simp [nodesAt, kept, hu']
    rw [hk, extractFiles_append, ih, relFilesAt, dirPrefix_snoc]
    simp [extractFiles, entryOf, Entry.isDirKind, Node.isDir]
theorem extract_nodesIn (sep : Char) (rootName : Str) (hroot : rootName ≠ dotGit) :
    ∀ (cs : List Node) (comps : List Str), (∀ x ∈ comps, validName sep x = true) →
      wfList sep cs = true → dotGit ∉ comps → hasGitDirList cs = false →
      extractFiles ⟨kept rootName (nodesIn comps cs)⟩ = relFilesIn (dirPrefix comps) cs
  | [], comps, _, _, _, _ => by
    simp [nodesIn, kept, extractFiles, relFilesIn]
  | c :: cs, comps, hv, hwf, hg, hgit => by
    obtain ⟨hc, hcw, hcs⟩ := (wfList_cons sep c cs).mp hwf
    simp only [hasGitDirList, Bool.or_eq_false_iff] at hgit
    rw [nodesIn, kept_append, extractFiles_append, relFilesIn,
      extract_nodesAt sep rootName hroot c comps hv hc hcw hg hgit.1,
      extract_nodesIn sep rootName hroot cs comps hv hcs hg hgit.2]
end

/-- C2. For a source directory that holds no directory named `.git` (the source
directory included) and whose nodes have valid file names, in a run without faults:
`zipToMem` returns an archive and no error, and the files read back from it are
exactly the root-relative file paths of the tree, each with the bytes of the file. -/
theorem zipToMem_roundtrip (env : FsEnv) (v : Bool) (source p : Str) (T : Node)
    (habs : env.abs source = .ok p) (hlook : env.lookup p = .ok T)
    (hdir : T.isDir = true) (hflt : env.faults = noFaults) (hwf : T.wf env.sep = true)
    (hgit : T.hasGitDir = false) :
    ∃ a, (zipToMem env v source).data = some a ∧ (zipToMem env v source).err = none ∧
      extractFiles a = relFiles T := by
  refine ⟨⟨kept T.name (nodesBelow T)⟩, ?_, ?_, ?_⟩
  · rw [zipToMem_exact env v source p T habs hlook hdir hflt hwf]
  · rw [zipToMem_exact env v source p T habs hlook hdir hflt hwf]
  · cases T with
    | file n b => simp [Node.isDir] at hdir
    | dir n cs =>
      simp only [Node.hasGitDir, Bool.or_eq_false_iff, beq_eq_false_iff_ne, ne_eq] at hgit
      have h := extract_nodesIn env.sep n hgit.1 cs [] (by simp)
        (by simpa [Node.wf] using hwf) (by simp) hgit.2
      simpa [nodesBelow, relFiles, dirPrefix, Node.name] using h

/-- The statement of C2 on the plain directory: three files come back. -/
theorem zipToMem_roundtrip_witness :
    plainTree.isDir = true ∧ plainTree.wf '/' = true ∧ plainTree.hasGitDir = false ∧
    relFiles plainTree =
      [("a.js".toList, [1, 2, 3]), ("lib/b.js".toList, [4]), ("manifest.webapp".toList, [5])] ∧
    ∃ a, (zipToMem plainEnv false "/app".toList).data = some a ∧
      (zipToMem plainEnv false "/app".toList).err = none ∧
      extractFiles a = relFiles plainTree :=
  ⟨rfl, by decide, by decide, by decide,
    zipToMem_roundtrip plainEnv false "/app".toList "/app".toList plainTree rfl rfl rfl rfl
      (by decide) (by decide)⟩

/-! ## The claims about `genMetadata` -/

/-- C6. When the manifest has a string field `origin` with value `s`, the manifest
URL is `s` followed by `manifest.webapp` with one slash between them: the slash is
added when `s` does not end in one and is not added when it does. In particular
the origins `https://example.com/app` and `https://example.com/app/` both give
`https://example.com/app/manifest.webapp`. -/
theorem manifestURL_origin (json : Json) (s u : Str)
    (h : json.CheckGet "origin".toList = some (.str s)) :
    manifestURL json u =
      (if HasSuffix s ['/'] then s.dropLast else s) ++ "/manifest.webapp".toList ∧
    (HasSuffix s ['/'] = true → manifestURL json u = s ++ "manifest.webapp".toList) ∧
    (HasSuffix s ['/'] = false → manifestURL json u = s ++ "/manifest.webapp".toList) ∧
    HasSuffix (manifestURL json u) "/manifest.webapp".toList = true ∧
    (s = "https://example.com/app".toList →
      manifestURL json u = "https://example.com/app/manifest.webapp".toList) ∧
    (s = "https://example.com/app/".toList →
      manifestURL json u = "https://example.com/app/manifest.webapp".toList) := by
  have hurl : manifestURL json u =
      if HasSuffix s ['/'] then s ++ "manifest.webapp".toList
      else s ++ "/manifest.webapp".toList := by
    simp only [manifestURL, h, Json.MustString]
    rfl
  have hfile : "/manifest.webapp".toList = ['/'] ++ "manifest.webapp".toList := by decide
  have hmain : manifestURL json u =
      (if HasSuffix s ['/'] then s.dropLast else s) ++ "/manifest.webapp".toList := by
    rw [hurl]
    by_cases hs : HasSuffix s ['/'] = true
    · simp only [hs, if_true]
      obtain ⟨t, ht⟩ := List.getLast?_eq_some_iff.mp ((hasSuffix_slash_iff s).mp hs)
      rw [ht, List.dropLast_concat, hfile, List.append_assoc]
    · simp only [hs, if_false, Bool.false_eq_true]
  refine ⟨hmain, ?_, ?_, ?_, ?_, ?_⟩
  · intro hs
    rw [hurl, hs]
    rfl
  · intro hs
    rw [hurl, hs]
    rfl
  · rw [hmain]
    unfold HasSuffix
    rw [List.isSuffixOf_iff_suffix]
    exact List.suffix_append _ _
  · intro hs
    rw [hurl, hs]
    decide
  · intro hs
    rw [hurl, hs]
    decide

/-- The statement of C6 on the two origins of the specification's examples. -/
theorem manifestURL_origin_witness :
    manifestURL originManifest sampleUuid = "https://example.com/app/manifest.webapp".toList ∧
    manifestURL originSlashManifest sampleUuid =
      "https://example.com/app/manifest.webapp".toList :=
  ⟨(manifestURL_origin originManifest "https://example.com/app".toList sampleUuid rfl).2.2.2.2.1
      rfl,
    (manifestURL_origin originSlashManifest "https://example.com/app/".toList sampleUuid
      rfl).2.2.2.2.2 rfl⟩

/-- C7, as stated, fails: a manifest whose `origin` is the number 42 has the field,
so the code takes the first branch, reads the value as the empty string and returns
`/manifest.webapp`, not a URL built from the UUID. -/
theorem manifestURL_nonstring_origin :
    manifestURL numericOriginManifest sampleUuid = "/manifest.webapp".toList ∧
    manifestURL numericOriginManifest sampleUuid ≠
      "app://".toList ++ sampleUuid ++ "/manifest.webapp".toList ∧
    manifestURL (.obj [("origin".toList, .null)]) sampleUuid = "/manifest.webapp".toList := by
  decide

/-- C7, amended. When the manifest has no field `origin` (the key is absent, or the
manifest is not an object), the manifest URL is `app://`, the generated identifier,
and `/manifest.webapp`. -/
theorem manifestURL_no_origin (json : Json) (u : Str)
    (h : json.CheckGet "origin".toList = none) :
    manifestURL json u = "app://".toList ++ u ++ "/manifest.webapp".toList := by
  simp only [manifestURL, h]

/-- The amended statement of C7 on a manifest without `origin`. -/
theorem manifestURL_no_origin_witness :
    manifestURL plainManifest sampleUuid =
      "app://".toList ++ sampleUuid ++ "/manifest.webapp".toList ∧
    manifestURL plainManifest sampleUuid =
      "app://6ba7b810-9dad-41d1-80b4-00c04fd430c8/manifest.webapp".toList ∧
    sampleUuid.length = 36 :=
  ⟨manifestURL_no_origin plainManifest sampleUuid rfl, by decide, by decide⟩

/-! ## The claims about `packSoftware` and `main` -/

/-- What `packSoftware` has written when it returns no error: the entries
`metadata.json` with the bytes of `metadata` and `application.zip` with the bytes of
`appZip`, in this order, in a container that is complete exactly when the deferred
`archive.Close()` succeeded. -/
theorem packSoftware_written (outputPath : Str) (flt : PackFaults) (dst : Str)
    (metadata appZip : Bytes) (files : Files)
    (h : (packSoftware outputPath flt dst metadata appZip files).2 = none) :
    (packSoftware outputPath flt dst metadata appZip files).1 outputPath =
      some ⟨[⟨⟨"metadata.json".toList, .Deflate, false⟩, metadata⟩,
             ⟨⟨"application.zip".toList, .Deflate, false⟩, appZip⟩],
        flt.archiveClose.isNone⟩ := by
  rcases flt with ⟨f1, f2, f3, f4, f5, f6⟩
  rcases f1 with _ | f1 <;> rcases f2 with _ | f2 <;> rcases f3 with _ | ⟨n3, c3⟩ <;>
  rcases f4 with _ | f4 <;> rcases f5 with _ | ⟨n5, c5⟩ <;>
  simp [packSoftware, Files.set, zipCreate, writeLast] at h ⊢

/-- C8 fails on the code. When every step succeeds except the deferred
`archive.Close()` of line 68, `packSoftware` returns a nil error, yet the container
it wrote is not complete and no entry can be read back from it. When `Close`
succeeds as well, the container reads back as `metadata.json` and `application.zip`
with the given bytes. -/
theorem packSoftware_drops_close_error :
    (packSoftware "app.zip".toList fullDeviceFaults "app.zip".toList [1, 2] [3] noFiles).2 =
      none ∧
    (packSoftware "app.zip".toList fullDeviceFaults "app.zip".toList [1, 2] [3] noFiles).1
        "app.zip".toList =
      some ⟨[⟨⟨"metadata.json".toList, .Deflate, false⟩, [1, 2]⟩,
             ⟨⟨"application.zip".toList, .Deflate, false⟩, [3]⟩], false⟩ ∧
    ((packSoftware "app.zip".toList fullDeviceFaults "app.zip".toList [1, 2] [3] noFiles).1
        "app.zip".toList).bind OutFile.read = none ∧
    ((packSoftware "app.zip".toList {} "app.zip".toList [1, 2] [3] noFiles).1
        "app.zip".toList).bind OutFile.read =
      some [⟨⟨"metadata.json".toList, .Deflate, false⟩, [1, 2]⟩,
            ⟨⟨"application.zip".toList, .Deflate, false⟩, [3]⟩] := by
  decide

/-- C9 fails on the code. Called with `dst = "out/pkg.zip"` while the flag
`-output` has its default `app.zip`, `packSoftware` succeeds, leaves `out/pkg.zip`
absent and writes the container to `app.zip`. -/
theorem packSoftware_ignores_dst :
    (packSoftware "app.zip".toList {} "out/pkg.zip".toList [1, 2] [3] noFiles).2 = none ∧
    (packSoftware "app.zip".toList {} "out/pkg.zip".toList [1, 2] [3] noFiles).1
        "out/pkg.zip".toList = none ∧
    (packSoftware "app.zip".toList {} "out/pkg.zip".toList [1, 2] [3] noFiles).1
        "app.zip".toList =
      some ⟨[⟨⟨"metadata.json".toList, .Deflate, false⟩, [1, 2]⟩,
             ⟨⟨"application.zip".toList, .Deflate, false⟩, [3]⟩], true⟩ := by
  decide

theorem genMetadata_missing (env : Env) (source : Str) (c : Nat)
    (h : env.lookup (Join env.sep source "manifest.webapp".toList) = .error c) :
    genMetadata env source = .error (.os c) := by
  simp only [genMetadata, ReadFile, h]

theorem zipToMem_file (env : FsEnv) (v : Bool) (source p n : Str) (b : Bytes)
    (habs : env.abs source = .ok p) (hlook : env.lookup p = .ok (.file n b)) :
    zipToMem env v source = ⟨none, some .sourceNotDir, []⟩ := by
  simp [zipToMem, habs, hlook, Node.isDir]

/-- C10. When the source path is a regular file, or nothing exists at the path of
`manifest.webapp` in the source directory, `main` ends with exit code 1, the last
line it prints is the error, and the files are as they were before the run,
whatever `packSoftware` would do: it is not reached. For a regular file the error
is `source not dir`; for a missing manifest in a directory it is the error of
reading the manifest. -/
theorem main_fails_early (flags : Flags) (env : Env) (pack : PackFaults) (files : Files)
    (h : (∃ p n b, env.abs flags.kaiosAppPath = .ok p ∧ env.lookup p = .ok (.file n b)) ∨
      (∃ c, env.lookup (Join env.sep flags.kaiosAppPath "manifest.webapp".toList) =
        .error c)) :
    (main flags env pack files).exitCode = 1 ∧
    (main flags env pack files).files = files ∧
    (∃ e, (main flags env pack files).stdout.getLast? = some (.error e)) ∧
    ((∃ p n b, env.abs flags.kaiosAppPath = .ok p ∧ env.lookup p = .ok (.file n b)) →
      (main flags env pack files).stdout.getLast? = some (.error .sourceNotDir)) ∧
    (∀ p n cs c, env.abs flags.kaiosAppPath = .ok p → env.lookup p = .ok (.dir n cs) →
      env.lookup (Join env.sep flags.kaiosAppPath "manifest.webapp".toList) = .error c →
      (main flags env pack files).stdout.getLast? = some (.error (.os c))) ∧
    (∀ pack', main flags env pack' files = main flags env pack files) := by
  have hfile : (∃ p n b, env.abs flags.kaiosAppPath = .ok p ∧ env.lookup p = .ok (.file n b)) →
      (main flags env pack files).exitCode = 1 ∧ (main flags env pack files).files = files ∧
      (main flags env pack files).stdout.getLast? = some (.error .sourceNotDir) := by
    rintro ⟨p, n, b, habs, hlook⟩
    have hz := zipToMem_file env.toFsEnv flags.verboseFlag flags.kaiosAppPath p n b habs hlook
    simp [main, hz]
  have hmiss : ∀ c, env.lookup (Join env.sep flags.kaiosAppPath "manifest.webapp".toList) =
        .error c →
      (main flags env pack files).exitCode = 1 ∧ (main flags env pack files).files = files ∧
      (∃ e, (main flags env pack files).stdout.getLast? = some (.error e)) ∧
      ((zipToMem env.toFsEnv flags.verboseFlag flags.kaiosAppPath).err = none →
        (main flags env pack files).stdout.getLast? = some (.error (.os c))) := by
    intro c hc
    have hg := genMetadata_missing env flags.kaiosAppPath c hc
    cases hz : (zipToMem env.toFsEnv flags.verboseFlag flags.kaiosAppPath).err with
    | some e => simp [main, hz]
    | none => simp [main, hz, hg]
  have hpack : ∀ pack', main flags env pack' files = main flags env pack files := by
    intro pack'
    rcases h with ⟨p, n, b, habs, hlook⟩ | ⟨c, hc⟩
    · have hz := zipToMem_file env.toFsEnv flags.verboseFlag flags.kaiosAppPath p n b habs hlook
      simp [main, hz]
    · have hg := genMetadata_missing env flags.kaiosAppPath c hc
      cases hz : (zipToMem env.toFsEnv flags.verboseFlag flags.kaiosAppPath).err with
      | some e => simp [main, hz]
      | none => simp [main, hz, hg]
  refine ⟨?_, ?_, ?_, fun hf => (hfile hf).2.2, ?_, hpack⟩
  · rcases h with h | ⟨c, hc⟩
    · exact (hfile h).1
    · exact (hmiss c hc).1
  · rcases h with h | ⟨c, hc⟩
    · exact (hfile h).2.1
    · exact (hmiss c hc).2.1
  · rcases h with h | ⟨c, hc⟩
    · exact ⟨_, (hfile h).2.2⟩
    · exact (hmiss c hc).2.2.1
  · intro p n cs c habs hlook hc
    refine (hmiss c hc).2.2.2 ?_
    rw [zipToMem_dir env.toFsEnv flags.verboseFlag flags.kaiosAppPath p n cs habs hlook]

/-- The statement of C10 on a host where `app` is a regular file, and on a host where
`app` is a directory without `manifest.webapp`. -/
theorem main_fails_early_witness :
    ((main {} fileEnv {} noFiles).exitCode = 1 ∧
      (main {} fileEnv {} noFiles).files = noFiles ∧
      (main {} fileEnv {} noFiles).stdout =
        [Line.text "KaiPack by zjyl1994".toList, Line.error .sourceNotDir]) ∧
    ((main {} bareEnv {} noFiles).exitCode = 1 ∧
      (main {} bareEnv {} noFiles).files = noFiles ∧
      (main {} bareEnv {} noFiles).stdout =
        [Line.text "KaiPack by zjyl1994".toList, Line.error (.os 2)]) :=
  ⟨⟨(main_fails_early {} fileEnv {} noFiles
      (Or.inl ⟨"/work/app".toList, "app".toList, [1], rfl, rfl⟩)).1,
    (main_fails_early {} fileEnv {} noFiles
      (Or.inl ⟨"/work/app".toList, "app".toList, [1], rfl, rfl⟩)).2.1,
    by decide⟩,
   ⟨(main_fails_early {} bareEnv {} noFiles (Or.inr ⟨2, rfl⟩)).1,
    (main_fails_early {} bareEnv {} noFiles (Or.inr ⟨2, rfl⟩)).2.1,
    by decide⟩⟩

end Kaipack
